import Mathlib

/-!
# Verification of the penguin-detection pipeline core

A shallow embedding, in Lean 4, of the core algorithms of the
penguin-detection survey pipeline:

* the per-cell online quantile update used by the streaming DEM/HAG raster
  builder (`_online_quantile_update_indexed` in `scripts/run_lidar_hag.py`);
* the stable detection-ID assignment of `process_file`;
* the watershed relabeling counter of `detect_penguins_from_hag`;
* the batch de-duplication union-find (`_dedupe_detections`);
* the fusion joiner (`pipelines/fusion.py`);
* the AOI evaluator (`pipelines/aoi_eval.py`).

Machine floats of the source are modelled as exact rationals (`ℚ`): every
property proved here is about the ordering/aggregation structure of the
algorithms, not about rounding.  numpy arrays are modelled as lists, and
numpy's fancy-indexing semantics (negative indices wrap; out-of-range
indices raise) are modelled explicitly.  Python's stable sort is modelled
by stable insertion sort (`List.insertionSort`), which computes the same
list as any stable sort by the same key.
-/

namespace PenguinPipeline

/-! ## §1 Per-cell online quantile update

Model of `_online_quantile_update_indexed(q_flat, idx, x, p, lr)`.
`q_flat` is a per-cell estimate array whose "NaN = not yet initialized"
entries are modelled as `none`.  `idx` and `x` are parallel arrays of raw
(possibly negative) flattened cell indices and sample values; we model the
pair of parallel arrays as a single list of `(index, value)` samples.
-/

/-- One sample of a stream chunk: raw flattened cell index (an `Int`,
because numpy integer indices may be negative) and sample value. -/
abbrev Sample := Int × ℚ

/-- numpy bounds check for indexing a 1-d array of length `n`:
an index `i` is usable iff `-n ≤ i < n`. -/
def validIdx (n : ℕ) (i : Int) : Bool :=
  decide (-(n : Int) ≤ i) && decide (i < (n : Int))

/-- numpy effective index: negative indices wrap around from the end. -/
def effIdx (n : ℕ) (i : Int) : ℕ :=
  (if i < 0 then (n : Int) + i else i).toNat

/-- `np.unique(idx)`: the sorted list of distinct raw indices in the chunk. -/
def uniqIdxs (samples : List Sample) : List Int :=
  ((samples.map Prod.fst).dedup).insertionSort (· ≤ ·)

/-- The values of the chunk samples whose raw index is `u`
(the group that `inv`-based aggregation forms for the unique index `u`). -/
def cellVals (samples : List Sample) (u : Int) : List ℚ :=
  (samples.filter (fun s => s.1 == u)).map Prod.snd

/-- Running minimum accumulator (models `np.minimum.at` seeding from `+inf`,
with `none` playing the role of the untouched `+inf` entry). -/
def minAcc (acc : Option ℚ) (v : ℚ) : Option ℚ :=
  some (match acc with | none => v | some w => min w v)

/-- Running maximum accumulator (models `np.maximum.at` seeding from `-inf`). -/
def maxAcc (acc : Option ℚ) (v : ℚ) : Option ℚ :=
  some (match acc with | none => v | some w => max w v)

/-- Minimum of a chunk group (`none` on the empty group). -/
def chunkMin (l : List ℚ) : Option ℚ := l.foldl minAcc none

/-- Maximum of a chunk group (`none` on the empty group). -/
def chunkMax (l : List ℚ) : Option ℚ := l.foldl maxAcc none

/-- The post-chunk estimate for the cell with raw index `u`, computed from
the pre-chunk array `q`: a `none` estimate is first initialized to the
group's minimum (for `p ≤ 0.5`) or maximum (for `p > 0.5`), then the
update `q0 + lr * (p - frac_below)` is applied, where `frac_below` is the
fraction of the group's samples that are `≤ q0`. -/
def cellNewVal (q : List (Option ℚ)) (samples : List Sample) (p lr : ℚ)
    (u : Int) : ℚ :=
  let vals := cellVals samples u
  let q0 : ℚ :=
    match q.getD (effIdx q.length u) none with
    | some w => w
    | none =>
        match (if p ≤ 1/2 then chunkMin vals else chunkMax vals) with
        | some m => m
        | none => 0
  let belowCnt : ℚ := vals.countP (fun v => decide (v ≤ q0))
  q0 + lr * (p - belowCnt / (vals.length : ℚ))

/-- The final write-back `q_flat[uniq] = q_u`: the new values are computed
from the pre-chunk array and then written in ascending order of the raw
unique indices, so when two raw indices alias the same cell (a negative
index and its wrap) the later write wins, as in numpy. -/
def applyWrites (q : List (Option ℚ)) (uniq : List Int)
    (samples : List Sample) (p lr : ℚ) : List (Option ℚ) :=
  uniq.foldl
    (fun acc u => acc.set (effIdx q.length u) (some (cellNewVal q samples p lr u)))
    q

/-- Model of `_online_quantile_update_indexed`.  An empty chunk returns the
array unchanged (the early `idx.size == 0` return); otherwise the fancy
read `q_flat[uniq]` raises when any raw index is out of numpy's legal
range, and the per-unique-cell updates are applied. -/
def onlineQuantileUpdateIndexed (q : List (Option ℚ)) (samples : List Sample)
    (p lr : ℚ) : Except String (List (Option ℚ)) :=
  if samples.isEmpty then .ok q
  else if samples.all (fun s => validIdx q.length s.1) then
    .ok (applyWrites q (uniqIdxs samples) samples p lr)
  else .error "index out of bounds"

/-- The initialization value for a cell whose estimate is absent: the
chunk group's minimum for `p ≤ 0.5`, its maximum otherwise. -/
def initEstimate (p : ℚ) (vals : List ℚ) : ℚ :=
  match (if p ≤ 1/2 then chunkMin vals else chunkMax vals) with
  | some m => m
  | none => 0

/-! ### Helper lemmas: chunk aggregates are permutation-invariant -/

theorem all_of_perm {α : Type} {l l' : List α} (h : l.Perm l') (f : α → Bool) :
    l.all f = l'.all f := by
  rw [Bool.eq_iff_iff]
  simp only [List.all_eq_true]
  exact ⟨fun hb x hx => hb x (h.mem_iff.mpr hx), fun hb x hx => hb x (h.mem_iff.mp hx)⟩

instance : RightCommutative minAcc :=
  ⟨fun b a₁ a₂ => by
    cases b with
    | none => simp [minAcc, min_comm]
    | some w => simp [minAcc, min_assoc, min_comm a₁ a₂]⟩

instance : RightCommutative maxAcc :=
  ⟨fun b a₁ a₂ => by
    cases b with
    | none => simp [maxAcc, max_comm]
    | some w => simp [maxAcc, max_assoc, max_comm a₁ a₂]⟩

theorem chunkMin_perm {l l' : List ℚ} (h : l.Perm l') : chunkMin l = chunkMin l' :=
  h.foldl_eq none

theorem chunkMax_perm {l l' : List ℚ} (h : l.Perm l') : chunkMax l = chunkMax l' :=
  h.foldl_eq none

theorem cellVals_perm {s s' : List Sample} (h : s.Perm s') (u : Int) :
    (cellVals s u).Perm (cellVals s' u) :=
  (h.filter _).map _

theorem uniqIdxs_perm {s s' : List Sample} (h : s.Perm s') :
    uniqIdxs s = uniqIdxs s' := by
  have hd : ((s.map Prod.fst).dedup).Perm ((s'.map Prod.fst).dedup) :=
    (h.map Prod.fst).dedup
  have h1 := List.perm_insertionSort (α := Int) (· ≤ ·) (s.map Prod.fst).dedup
  have h2 := List.perm_insertionSort (α := Int) (· ≤ ·) (s'.map Prod.fst).dedup
  exact List.eq_of_perm_of_sorted ((h1.trans hd).trans h2.symm)
    (List.sorted_insertionSort _ _) (List.sorted_insertionSort _ _)

theorem cellNewVal_perm (q : List (Option ℚ)) {s s' : List Sample}
    (h : s.Perm s') (p lr : ℚ) (u : Int) :
    cellNewVal q s p lr u = cellNewVal q s' p lr u := by
  have hv := cellVals_perm h u
  simp only [cellNewVal, chunkMin_perm hv, chunkMax_perm hv, hv.countP_eq,
    hv.length_eq]

theorem applyWrites_perm (q : List (Option ℚ)) {s s' : List Sample}
    (h : s.Perm s') (p lr : ℚ) :
    applyWrites q (uniqIdxs s) s p lr = applyWrites q (uniqIdxs s') s' p lr := by
  simp only [applyWrites, uniqIdxs_perm h]
  congr 1
  funext acc u
  rw [cellNewVal_perm q h]

/-! ### Helper lemmas: reading back the per-cell writes -/

theorem foldl_set_getD_untouched {α : Type} {I : Type} (l : List I)
    (pos : I → ℕ) (f : I → α) (acc : List α) (c : ℕ) (d : α)
    (h : ∀ w ∈ l, pos w ≠ c) :
    (l.foldl (fun a v => a.set (pos v) (f v)) acc).getD c d = acc.getD c d := by
  induction l generalizing acc with
  | nil => rfl
  | cons v rest ih =>
      simp only [List.foldl_cons]
      rw [ih _ (fun w hw => h w (List.mem_cons_of_mem v hw))]
      simp only [List.getD_eq_getElem?_getD]
      rw [List.getElem?_set_ne (h v (List.mem_cons_self v rest))]

/-- Reading a cell after the ascending-order write-back: the cell holds the
value written by the largest raw index that targets it (numpy fancy
assignment with the sorted `uniq` array: the later write wins). -/
theorem foldl_set_getD_sorted {α : Type} (l : List Int)
    (pos : Int → ℕ) (f : Int → α) (acc : List α) (d : α)
    (hnd : l.Nodup) (hsorted : List.Sorted (· ≤ ·) l) (u : Int) (hu : u ∈ l)
    (hlast : ∀ w ∈ l, pos w = pos u → w ≤ u)
    (hlt : pos u < acc.length) :
    (l.foldl (fun a v => a.set (pos v) (f v)) acc).getD (pos u) d = f u := by
  induction l generalizing acc with
  | nil => cases hu
  | cons v rest ih =>
      rw [List.nodup_cons] at hnd
      rw [List.sorted_cons] at hsorted
      rcases List.mem_cons.mp hu with rfl | hmem
      · -- `u` is the head: no later write targets `pos u`
        simp only [List.foldl_cons]
        have hunt : ∀ w ∈ rest, pos w ≠ pos u := by
          intro w hw hc
          have h1 : w ≤ u := hlast w (List.mem_cons_of_mem u hw) hc
          have h2 : u ≤ w := hsorted.1 w hw
          exact hnd.1 (le_antisymm h1 h2 ▸ hw)
        rw [foldl_set_getD_untouched rest pos f _ _ _ hunt]
        simp only [List.getD_eq_getElem?_getD]
        rw [List.getElem?_set_self (by simpa using hlt)]
        rfl
      · simp only [List.foldl_cons]
        exact ih _ hnd.2 hsorted.2 hmem
          (fun w hw hc => hlast w (List.mem_cons_of_mem v hw) hc)
          (by simpa using hlt)

/-! ### The C2 and C9 theorems -/

/-- C2: the per-cell online quantile update is deterministic across
intra-chunk sample ordering: permuting the chunk's samples yields an
identical result (including the out-of-range error behavior), and a cell
whose estimate is absent is updated starting from the chunk's cell
minimum when `p ≤ 0.5` and maximum when `p > 0.5`, independent of sample
arrival order. -/
theorem quantile_update_order_invariant (q : List (Option ℚ))
    (samples samples' : List Sample) (p lr : ℚ) (hperm : samples.Perm samples') :
    onlineQuantileUpdateIndexed q samples p lr
      = onlineQuantileUpdateIndexed q samples' p lr ∧
    (∀ u ∈ uniqIdxs samples, (0 : Int) ≤ u →
      q.getD (effIdx q.length u) none = none →
      ∀ res, onlineQuantileUpdateIndexed q samples p lr = .ok res →
        res.getD (effIdx q.length u) none
          = some (initEstimate p (cellVals samples u)
              + lr * (p - ((cellVals samples u).countP
                  (fun v => decide (v ≤ initEstimate p (cellVals samples u))) : ℚ)
                / ((cellVals samples u).length : ℚ)))) := by
  constructor
  · simp only [onlineQuantileUpdateIndexed, hperm.isEmpty_eq,
      all_of_perm hperm (fun s => validIdx q.length s.1),
      applyWrites_perm q hperm]
  · intro u hu hu0 habsent res hres
    simp only [onlineQuantileUpdateIndexed] at hres
    by_cases hemp : samples.isEmpty
    · -- impossible: `uniqIdxs` of an empty chunk is empty
      rw [List.isEmpty_iff] at hemp
      subst hemp
      simp [uniqIdxs] at hu
    · rw [if_neg hemp] at hres
      by_cases hall : samples.all (fun s => validIdx q.length s.1)
      · rw [if_pos hall, Except.ok.injEq] at hres
        subst hres
        -- the unique raw indices map to pairwise-distinct effective cells
        have hsorted : List.Sorted (· ≤ ·) (uniqIdxs samples) :=
          List.sorted_insertionSort _ _
        have hnd : (uniqIdxs samples).Nodup := by
          have := (List.perm_insertionSort (α := Int) (· ≤ ·)
            (samples.map Prod.fst).dedup).nodup_iff.mpr (List.nodup_dedup _)
          exact this
        have hvalid : ∀ w ∈ uniqIdxs samples, validIdx q.length w := by
          intro w hw
          have hw' : w ∈ (samples.map Prod.fst).dedup :=
            (List.perm_insertionSort (α := Int) (· ≤ ·) _).mem_iff.mp hw
          rw [List.mem_dedup, List.mem_map] at hw'
          obtain ⟨smp, hsmp, rfl⟩ := hw'
          exact List.all_eq_true.mp hall smp hsmp
        have hlast : ∀ w ∈ uniqIdxs samples,
            effIdx q.length w = effIdx q.length u → w ≤ u := by
          intro w hw hc
          rcases lt_or_ge w 0 with hnw | hpw
          · exact le_trans (le_of_lt hnw) hu0
          · simp only [effIdx, if_neg (not_lt.mpr hpw),
              if_neg (not_lt.mpr hu0)] at hc
            omega
        have hulen : effIdx q.length u < q.length := by
          have := hvalid u hu
          simp only [validIdx, Bool.and_eq_true, decide_eq_true_eq] at this
          simp only [effIdx, if_neg (not_lt.mpr hu0)]
          omega
        rw [applyWrites, foldl_set_getD_sorted (uniqIdxs samples)
          (effIdx q.length) _ q none hnd hsorted u hu hlast hulen]
        simp only [cellNewVal, habsent, initEstimate]
      · rw [if_neg hall] at hres
        cases hres

/-- Witness for `quantile_update_order_invariant`: a two-sample chunk into
an uninitialized single-cell array, presented in both orders. -/
theorem quantile_update_order_invariant_witness :
    onlineQuantileUpdateIndexed [none] [(0, 3), (0, 7)] (1/20) (1/10)
      = onlineQuantileUpdateIndexed [none] [(0, 7), (0, 3)] (1/20) (1/10) ∧
    onlineQuantileUpdateIndexed [none] [(0, 3), (0, 7)] (1/20) (1/10)
      = .ok [some (591/200)] := by
  refine ⟨(quantile_update_order_invariant [none] [(0, 3), (0, 7)]
    [(0, 7), (0, 3)] (1/20) (1/10) (List.Perm.swap _ _ _)).1, ?_⟩
  norm_num [onlineQuantileUpdateIndexed, applyWrites, uniqIdxs, cellVals,
    cellNewVal, chunkMin, minAcc, validIdx, effIdx, List.insertionSort,
    List.orderedInsert, List.dedup, List.pwFilter, initEstimate]

/-- C9 (amended): the per-cell online quantile update fails exactly when
some sample's raw flattened cell index lies outside numpy's legal range
`[-n, n)` for the estimate-array length `n = ny·nx`.  In particular an
index in `[-n, 0)` — negative, as the original claim covers — does NOT
fail: numpy silently wraps it to a cell counted from the end. -/
theorem quantile_update_error_iff (q : List (Option ℚ))
    (samples : List Sample) (p lr : ℚ) :
    (∃ e, onlineQuantileUpdateIndexed q samples p lr = .error e) ↔
      ∃ s ∈ samples, s.1 < -(q.length : Int) ∨ (q.length : Int) ≤ s.1 := by
  unfold onlineQuantileUpdateIndexed
  by_cases hemp : samples.isEmpty
  · rw [List.isEmpty_iff] at hemp
    subst hemp
    simp
  · rw [if_neg hemp]
    by_cases hall : samples.all fun s => validIdx q.length s.1
    · rw [if_pos hall]
      simp only [List.all_eq_true, validIdx, Bool.and_eq_true,
        decide_eq_true_eq] at hall
      constructor
      · rintro ⟨e, he⟩
        cases he
      · rintro ⟨s, hs, hor⟩
        have h := hall s hs
        exfalso
        rcases hor with h1 | h2 <;> omega
    · rw [if_neg hall]
      constructor
      · intro _
        simp only [List.all_eq_true, validIdx, Bool.and_eq_true,
          decide_eq_true_eq, not_forall] at hall
        obtain ⟨s, hs, hbad⟩ := hall
        rw [Classical.not_and_iff_or_not_not] at hbad
        refine ⟨s, hs, ?_⟩
        omega
      · intro _
        exact ⟨_, rfl⟩

/-- C9 counterexample: the claim says any negative cell index fails with an
index error, but a sample with raw index `-1` into a 2-cell array succeeds:
numpy wraps `-1` to the final cell and updates it. -/
theorem quantile_update_negative_index_no_error :
    onlineQuantileUpdateIndexed [none, none] [(-1, 5)] (1/20) (1/10)
      = .ok [none, some (981/200)] := by
  norm_num [onlineQuantileUpdateIndexed, applyWrites, uniqIdxs, cellVals,
    cellNewVal, chunkMin, minAcc, validIdx, effIdx, List.insertionSort,
    List.orderedInsert, List.dedup, List.pwFilter, initEstimate]

/-! ## §2 Stable detection IDs (`process_file`)

Model of the ID-assignment epilogue of `process_file`:

    dets.sort(key=lambda d: (d["x"], d["y"], d["area_cells"]))
    for i, d in enumerate(dets, start=1):
        d["tile"] = stem; d["id"] = f"stem:i 0-padded"; d["file"] = path

Python's list sort is a stable sort by the key; stable insertion sort
computes the same list, so `List.insertionSort` models it exactly.
-/

/-- The per-detection attributes emitted by `detect_penguins_from_hag`
before IDs are assigned.  `label` records the connected-component label
id — the scan-order artifact that stable IDs must not depend on. -/
structure RawDet where
  label : ℕ
  x : ℚ
  y : ℚ
  area_cells : ℕ
  hag_mean : ℚ
  hag_max : ℚ
deriving DecidableEq, Repr

/-- The Python sort key `(x, y, area_cells)`, as a lexicographic tuple. -/
def detKey (d : RawDet) : Lex (ℚ × Lex (ℚ × ℕ)) :=
  toLex (d.x, toLex (d.y, d.area_cells))

/-- Python tuple comparison on the sort key. -/
def detKeyLe (a b : RawDet) : Prop := detKey a ≤ detKey b

instance : DecidableRel detKeyLe := fun a b =>
  inferInstanceAs (Decidable (detKey a ≤ detKey b))

instance : IsTotal RawDet detKeyLe := ⟨fun a b => le_total (detKey a) (detKey b)⟩

instance : IsTrans RawDet detKeyLe := ⟨fun _ _ _ hab hbc => le_trans hab hbc⟩

/-- `f"i:05d"`: decimal rendering left-padded with zeros to width 5. -/
def pad5 (i : ℕ) : String :=
  let s := toString i
  String.mk (List.replicate (5 - s.length) '0') ++ s

/-- A detection record after `process_file` attached tile, id and file. -/
structure IdDet where
  det : RawDet
  tile : String
  id : String
  file : String
deriving DecidableEq, Repr

/-- `enumerate(dets, start=k)` with the `tile`/`id`/`file` attachment. -/
def attachIds (stem path : String) (start : ℕ) : List RawDet → List IdDet
  | [] => []
  | d :: rest =>
      ⟨d, stem, stem ++ ":" ++ pad5 start, path⟩ :: attachIds stem path (start + 1) rest

/-- The stable-ID epilogue of `process_file`: stable-sort the accepted
detections by `(x, y, area_cells)`, then assign 1-based zero-padded IDs in
sorted position. -/
def assignIds (stem path : String) (dets : List RawDet) : List IdDet :=
  attachIds stem path 1 (List.insertionSort detKeyLe dets)

/-! ### Helper lemmas for C1 -/

theorem attachIds_map_det (stem path : String) (start : ℕ) (l : List RawDet) :
    (attachIds stem path start l).map IdDet.det = l := by
  induction l generalizing start with
  | nil => rfl
  | cons d rest ih => simp [attachIds, ih]

theorem attachIds_length (stem path : String) (start : ℕ) (l : List RawDet) :
    (attachIds stem path start l).length = l.length := by
  induction l generalizing start with
  | nil => rfl
  | cons d rest ih => simp [attachIds, ih]

theorem attachIds_get (stem path : String) (start : ℕ) (l : List RawDet)
    (i : ℕ) (h : i < (attachIds stem path start l).length) :
    (attachIds stem path start l).get ⟨i, h⟩
      = ⟨l.get ⟨i, by rw [attachIds_length] at h; exact h⟩, stem,
          stem ++ ":" ++ pad5 (start + i), path⟩ := by
  induction l generalizing start i with
  | nil => cases h
  | cons d rest ih =>
      cases i with
      | zero => simp [attachIds]
      | succ j =>
          simp only [attachIds, List.get_cons_succ]
          rw [ih]
          have harith : start + 1 + j = start + (j + 1) := by omega
          simp [harith]

/-- Two lists that are permutations of each other and both pairwise-ordered
by an asymmetric relation are equal. -/
theorem perm_pairwise_asymm_eq {α : Type} {lt : α → α → Prop}
    (hasymm : ∀ a b, lt a b → ¬ lt b a) :
    ∀ l₁ l₂ : List α, l₁.Perm l₂ → l₁.Pairwise lt → l₂.Pairwise lt → l₁ = l₂ := by
  intro l₁
  induction l₁ with
  | nil =>
      intro l₂ hperm _ _
      exact (hperm.nil_eq).symm ▸ rfl
  | cons a t₁ ih =>
      intro l₂ hperm hp₁ hp₂
      cases l₂ with
      | nil => exact absurd hperm.symm.nil_eq (by simp)
      | cons b t₂ =>
          rcases List.pairwise_cons.mp hp₁ with ⟨ha₁, ht₁⟩
          rcases List.pairwise_cons.mp hp₂ with ⟨hb₂, ht₂⟩
          by_cases hab : a = b
          · subst hab
            rw [ih t₂ hperm.cons_inv ht₁ ht₂]
          · exfalso
            have hamem : a ∈ b :: t₂ := hperm.subset (List.mem_cons_self a t₁)
            have hbmem : b ∈ a :: t₁ := hperm.symm.subset (List.mem_cons_self b t₂)
            have hat₂ : a ∈ t₂ := by
              rcases List.mem_cons.mp hamem with h | h
              · exact absurd h hab
              · exact h
            have hbt₁ : b ∈ t₁ := by
              rcases List.mem_cons.mp hbmem with h | h
              · exact absurd h.symm hab
              · exact h
            exact hasymm a b (ha₁ b hbt₁) (hb₂ a hat₂)

/-! ### The C1 theorem -/

/-- C1: `process_file` emits the accepted detections sorted in ascending
lexicographic `(x, y, area_cells)` order, the detection in 1-based sorted
position `i` receives the zero-padded ID `stem:NNNNN` with suffix `i`, the
output is a permutation of the input detections, and — whenever the sort
keys are pairwise distinct — the output is identical for every
presentation order of the detections, so IDs are independent of
label-numbering or scan order. -/
theorem detection_ids_sorted_stable (stem path : String) (dets : List RawDet) :
    ((assignIds stem path dets).map IdDet.det).Perm dets ∧
    List.Sorted detKeyLe ((assignIds stem path dets).map IdDet.det) ∧
    (∀ i (h : i < (assignIds stem path dets).length),
      ((assignIds stem path dets).get ⟨i, h⟩).id = stem ++ ":" ++ pad5 (i + 1) ∧
      ((assignIds stem path dets).get ⟨i, h⟩).tile = stem) ∧
    (∀ dets' : List RawDet, dets.Perm dets' → (dets.map detKey).Nodup →
      assignIds stem path dets = assignIds stem path dets') := by
  refine ⟨?_, ?_, ?_, ?_⟩
  · rw [assignIds, attachIds_map_det]
    exact List.perm_insertionSort detKeyLe dets
  · rw [assignIds, attachIds_map_det]
    exact List.sorted_insertionSort detKeyLe dets
  · intro i h
    have hg := attachIds_get stem path 1 (List.insertionSort detKeyLe dets) i h
    constructor
    · show ((attachIds stem path 1 (List.insertionSort detKeyLe dets)).get
        ⟨i, h⟩).id = stem ++ ":" ++ pad5 (i + 1)
      rw [hg, Nat.add_comm]
    · show ((attachIds stem path 1 (List.insertionSort detKeyLe dets)).get
        ⟨i, h⟩).tile = stem
      rw [hg]
  · intro dets' hperm hnodup
    have hsorteq : List.insertionSort detKeyLe dets
        = List.insertionSort detKeyLe dets' := by
      have hp : (List.insertionSort detKeyLe dets).Perm
          (List.insertionSort detKeyLe dets') :=
        ((List.perm_insertionSort detKeyLe dets).trans hperm).trans
          (List.perm_insertionSort detKeyLe dets').symm
      have hkey₁ : ((List.insertionSort detKeyLe dets).map detKey).Nodup :=
        ((List.perm_insertionSort detKeyLe dets).map detKey).nodup_iff.mpr hnodup
      have hstrict : ∀ l : List RawDet, List.Sorted detKeyLe l →
          (l.map detKey).Nodup → l.Pairwise (fun a b => detKey a < detKey b) := by
        intro l hs hn
        have hne := List.pairwise_map.mp hn
        exact (hs.and hne).imp (fun h => lt_of_le_of_ne h.1 h.2)
      have hkey₂ : ((List.insertionSort detKeyLe dets').map detKey).Nodup := by
        refine (hp.map detKey).nodup_iff.mp hkey₁
      exact perm_pairwise_asymm_eq (fun a b => lt_asymm) _ _ hp
        (hstrict _ (List.sorted_insertionSort detKeyLe dets) hkey₁)
        (hstrict _ (List.sorted_insertionSort detKeyLe dets') hkey₂)
    rw [assignIds, assignIds, hsorteq]

/-- Witness for `detection_ids_sorted_stable`: three detections presented
in reverse spatial order get IDs `t:00001..t:00003` by `(x, y, area)`,
and the same IDs for the swapped presentation. -/
theorem detection_ids_sorted_stable_witness :
    assignIds "t" "p" [⟨7, 2, 0, 4, 0, 0⟩, ⟨3, 1, 5, 9, 0, 0⟩]
      = [⟨⟨3, 1, 5, 9, 0, 0⟩, "t", "t:00001", "p"⟩,
         ⟨⟨7, 2, 0, 4, 0, 0⟩, "t", "t:00002", "p"⟩] ∧
    assignIds "t" "p" [⟨7, 2, 0, 4, 0, 0⟩, ⟨3, 1, 5, 9, 0, 0⟩]
      = assignIds "t" "p" [⟨3, 1, 5, 9, 0, 0⟩, ⟨7, 2, 0, 4, 0, 0⟩] := by
  constructor
  · decide
  · exact (detection_ids_sorted_stable "t" "p" _).2.2.2 _
      (List.Perm.swap _ _ _) (by decide)

/-! ## §3 Watershed split relabeling (`detect_penguins_from_hag`)

Model of the relabeling of watershed fragments:

    current_max = int(labeled.max())
    for region in ...:
        unique_ws = np.unique(ws[ws_mask])
        label_map = (int(l) maps to int(i + current_max + 1) for i, l in enumerate(unique_ws))
        current_max += len(unique_ws)

Each split region contributes its list `unique_ws` of distinct local
watershed labels; what matters for global uniqueness is only how many
fragments each region has and how the shared counter advances, so the
model takes `labeled.max()` (every pre-existing connected-component label
is `≤` this) and the per-region `unique_ws` lists, and returns each
region's assigned global labels.  The watershed segmentation itself
(`skimage.segmentation.watershed`, `h_maxima`) is an external library and
enters only through these per-region label lists. -/
def relabelRegions (currentMax : ℕ) : List (List ℕ) → List (List ℕ)
  | [] => []
  | ws :: rest =>
      ((List.range ws.length).map (fun i => i + currentMax + 1))
        :: relabelRegions (currentMax + ws.length) rest

theorem relabelRegions_mem_bounds :
    ∀ (regs : List (List ℕ)) (m : ℕ), ∀ l ∈ relabelRegions m regs, ∀ x ∈ l,
      m < x ∧ x ≤ m + (regs.map List.length).sum := by
  intro regs
  induction regs with
  | nil =>
      intro m l hl
      cases hl
  | cons ws rest ih =>
      intro m l hl x hx
      rcases List.mem_cons.mp hl with rfl | hmem
      · obtain ⟨i, hi, rfl⟩ := List.mem_map.mp hx
        rw [List.mem_range] at hi
        simp only [List.map_cons, List.sum_cons]
        omega
      · have := ih (m + ws.length) l hmem x hx
        simp only [List.map_cons, List.sum_cons]
        omega

/-- C3: when watershed splitting is enabled, the labels assigned to split
fragments are globally unique: every new label exceeds `labeled.max()`
(hence never equals a pre-existing connected-component label), labels
assigned to fragments of different regions never coincide, and fragments
within one region receive pairwise-distinct labels. -/
theorem watershed_split_labels_globally_unique
    (labeledMax : ℕ) (regions : List (List ℕ)) :
    (∀ lab ∈ (relabelRegions labeledMax regions).flatten, labeledMax < lab) ∧
    List.Pairwise (fun l₁ l₂ => ∀ lab ∈ l₁, lab ∉ l₂)
      (relabelRegions labeledMax regions) ∧
    (∀ l ∈ relabelRegions labeledMax regions, l.Nodup) := by
  refine ⟨?_, ?_, ?_⟩
  · intro lab hlab
    obtain ⟨l, hl, hx⟩ := List.mem_flatten.mp hlab
    exact (relabelRegions_mem_bounds regions labeledMax l hl lab hx).1
  · induction regions generalizing labeledMax with
    | nil => exact List.Pairwise.nil
    | cons ws rest ih =>
        rw [relabelRegions, List.pairwise_cons]
        refine ⟨?_, ih (labeledMax + ws.length)⟩
        intro l hl lab hlab hlab'
        obtain ⟨i, hi, rfl⟩ := List.mem_map.mp hlab
        rw [List.mem_range] at hi
        have := (relabelRegions_mem_bounds rest (labeledMax + ws.length)
          l hl _ hlab').1
        omega
  · intro l
    induction regions generalizing labeledMax with
    | nil =>
        intro hl
        cases hl
    | cons ws rest ih =>
        intro hl
        rcases List.mem_cons.mp hl with rfl | hmem
        · exact (List.nodup_range ws.length).map (fun a b hab => by omega)
        · exact ih (labeledMax + ws.length) hmem

/-- Witness for `watershed_split_labels_globally_unique`: with
`labeled.max() = 5` and two split regions with local labels `[3, 9]` and
`[4]`, the fragments get global labels `[6, 7]` and `[8]`. -/
theorem watershed_split_labels_globally_unique_witness :
    relabelRegions 5 [[3, 9], [4]] = [[6, 7], [8]] ∧
    5 < 6 ∧ (6 : ℕ) ∉ [8] ∧ List.Nodup [6, 7] := by
  have h := watershed_split_labels_globally_unique 5 [[3, 9], [4]]
  refine ⟨by decide, h.1 6 (by decide), ?_, ?_⟩
  · exact (List.pairwise_cons.mp h.2.1).1 [8] (by decide) 6 (by decide)
  · exact h.2.2 [6, 7] (by decide)

/-! ## §4 Fusion joiner (`pipelines/fusion.py`)

Model of `_join_detections` and `run`.  Detections are records with
optional planar coordinates (`_xy_from_dets` skips records lacking `x` or
`y`).  The KD-tree query `tree.query(lidar_xy, k=1, distance_upper_bound=r)`
is modelled as a fold choosing the thermal point of minimal squared
distance (first wins ties), matched when within the radius; tie-breaking
and the boundary convention are irrelevant to the counting identities
proved here. -/

/-- A detection as the fusion joiner sees it. -/
structure FusionDet where
  coords : Option (ℚ × ℚ)
deriving DecidableEq, Repr

/-- Squared Euclidean distance (the model compares squared distances so
everything stays in `ℚ`). -/
def sqDist (a b : ℚ × ℚ) : ℚ := (a.1 - b.1) ^ 2 + (a.2 - b.2) ^ 2

/-- Pair each list element with its (0-based) global index, starting at `k`. -/
def withIdx {α : Type} : ℕ → List α → List (ℕ × α)
  | _, [] => []
  | k, a :: as => (k, a) :: withIdx (k + 1) as

/-- `_xy_from_dets`: the coordinates and global indices of the detections
that carry both `x` and `y`. -/
def xyFromDets (dets : List FusionDet) : List (ℕ × (ℚ × ℚ)) :=
  (withIdx 0 dets).filterMap fun p =>
    match p.2.coords with
    | some c => some (p.1, c)
    | none => none

/-- Single-nearest-neighbour query against the thermal coordinates:
the global thermal index of minimal squared distance, with that distance. -/
def nearestThermal (txy : List (ℕ × (ℚ × ℚ))) (p : ℚ × ℚ) : Option (ℕ × ℚ) :=
  txy.foldl
    (fun acc q =>
      match acc with
      | none => some (q.1, sqDist p q.2)
      | some (j0, d0) =>
          if sqDist p q.2 < d0 then some (q.1, sqDist p q.2) else some (j0, d0))
    none

/-- Per-LiDAR-detection match results (`lidar_matches` in the source):
`some j` when the detection has coordinates and its nearest thermal
neighbour `j` lies within the match radius. -/
def lidarMatchList (lidar thermal : List FusionDet) (r : ℚ) : List (Option ℕ) :=
  let txy := xyFromDets thermal
  lidar.map fun d =>
    match d.coords with
    | none => none
    | some p =>
        match nearestThermal txy p with
        | none => none
        | some (j, dsq) => if dsq ≤ r ^ 2 then some j else none

/-- The fusion rollup counts. -/
structure FusionCounts where
  lidar_count : ℕ
  thermal_count : ℕ
  lidar_matched_count : ℕ
  thermal_matched_count : ℕ
  lidar_only_count : ℕ
  thermal_only_count : ℕ
deriving DecidableEq, Repr

/-- Model of `_join_detections`: per-LiDAR nearest matches, per-thermal
`matched_by_lidar` flags (a thermal detection is flagged once no matter
how many LiDAR detections select it), and the count block
(`*_only_count` is `count - matched_count`, as in the source). -/
def joinDetections (lidar thermal : List FusionDet) (r : ℚ) : FusionCounts :=
  let ms := lidarMatchList lidar thermal r
  let thermalMatched := (withIdx 0 thermal).map fun q => decide (some q.1 ∈ ms)
  let lm := (ms.filter Option.isSome).length
  let tm := (thermalMatched.filter id).length
  { lidar_count := lidar.length
    thermal_count := thermal.length
    lidar_matched_count := lm
    thermal_matched_count := tm
    lidar_only_count := lidar.length - lm
    thermal_only_count := thermal.length - tm }

/-- `pipelines.fusion.run`: extract the detections from the two summaries
and join them.  The summaries' CRS tags are carried in the model because
the spec says they are verified — the code never reads them. -/
structure FusionSummary where
  crs : Option String
  dets : List FusionDet
deriving DecidableEq, Repr

def fusionRun (lidarSummary thermalSummary : FusionSummary) (r : ℚ) :
    FusionCounts :=
  joinDetections lidarSummary.dets thermalSummary.dets r

/-! ### Helper lemmas for C5 -/

theorem withIdx_map_fst {α : Type} (l : List α) :
    ∀ k, (withIdx k l).map Prod.fst = List.range' k l.length := by
  induction l with
  | nil => intro k; rfl
  | cons a as ih =>
      intro k
      simp [withIdx, List.range'_succ, ih]

theorem withIdx_length {α : Type} (l : List α) :
    ∀ k, (withIdx k l).length = l.length := by
  induction l with
  | nil => intro k; rfl
  | cons a as ih => intro k; simp [withIdx, ih]

/-! ### The C5 theorem -/

/-- C5: for every pair of detection sets and every radius, the fusion
joiner's counts satisfy `lidar_only + lidar_matched = lidar_count` and
`thermal_only + thermal_matched = thermal_count`, and
`thermal_matched_count` counts each thermal detection at most once — it
equals the number of distinct thermal indices selected by any LiDAR
detection, never the number of selecting LiDAR detections. -/
theorem fusion_counts_partition (lidar thermal : List FusionDet) (r : ℚ) :
    (joinDetections lidar thermal r).lidar_only_count
        + (joinDetections lidar thermal r).lidar_matched_count
      = (joinDetections lidar thermal r).lidar_count ∧
    (joinDetections lidar thermal r).thermal_only_count
        + (joinDetections lidar thermal r).thermal_matched_count
      = (joinDetections lidar thermal r).thermal_count ∧
    (joinDetections lidar thermal r).thermal_matched_count
      = ((List.range thermal.length).filter
          (fun j => decide (some j ∈ lidarMatchList lidar thermal r))).length := by
  have hlm : ((lidarMatchList lidar thermal r).filter Option.isSome).length
      ≤ lidar.length := by
    calc ((lidarMatchList lidar thermal r).filter Option.isSome).length
        ≤ (lidarMatchList lidar thermal r).length := List.length_filter_le _ _
      _ = lidar.length := by rw [lidarMatchList]; exact List.length_map _ _
  have htmeq : (((withIdx 0 thermal).map
        (fun q => decide (some q.1 ∈ lidarMatchList lidar thermal r))).filter
          id).length
      = ((List.range thermal.length).filter
          (fun j => decide (some j ∈ lidarMatchList lidar thermal r))).length := by
    have h1 : ((withIdx 0 thermal).map
          (fun q => decide (some q.1 ∈ lidarMatchList lidar thermal r)))
        = ((withIdx 0 thermal).map Prod.fst).map
            (fun j => decide (some j ∈ lidarMatchList lidar thermal r)) := by
      rw [List.map_map]
      rfl
    rw [h1, withIdx_map_fst, ← List.range_eq_range']
    rw [List.filter_map]
    simp
  have htm : (((withIdx 0 thermal).map
        (fun q => decide (some q.1 ∈ lidarMatchList lidar thermal r))).filter
          id).length
      ≤ thermal.length := by
    calc (((withIdx 0 thermal).map _).filter id).length
        ≤ ((withIdx 0 thermal).map
            (fun q => decide (some q.1 ∈ lidarMatchList lidar thermal r))).length :=
          List.length_filter_le _ _
      _ = (withIdx 0 thermal).length := List.length_map _ _
      _ = thermal.length := withIdx_length thermal 0
  refine ⟨?_, ?_, ?_⟩
  · simp only [joinDetections]
    omega
  · simp only [joinDetections]
    omega
  · simp only [joinDetections]
    exact htmeq

/-! ### The C6 record: no CRS verification in the fusion joiner -/

/-- C6 (divergence record): the fusion `run` performs no CRS verification.
At the exact input of the repository's own test
`test_fusion_rejects_crs_mismatch` — LiDAR summary tagged `EPSG:32720`,
thermal tagged `EPSG:5345`, one detection each at the origin — the joiner
returns a normal rollup instead of failing, and in general its output is
invariant under arbitrary changes of either CRS tag. -/
theorem fusion_run_no_crs_check :
    fusionRun ⟨some "EPSG:32720", [⟨some (0, 0)⟩]⟩
        ⟨some "EPSG:5345", [⟨some (0, 0)⟩]⟩ (1/2)
      = ⟨1, 1, 1, 1, 0, 0⟩ ∧
    (∀ (s t : FusionSummary) (c₁ c₂ : Option String) (r : ℚ),
      fusionRun ⟨c₁, s.dets⟩ ⟨c₂, t.dets⟩ r = fusionRun s t r) := by
  constructor
  · norm_num [fusionRun, joinDetections, lidarMatchList, nearestThermal,
      xyFromDets, withIdx, sqDist, List.filterMap]
  · intro s t c₁ c₂ r
    rfl

/-! ## §5 AOI evaluator (`pipelines/aoi_eval.py`)

Model of `run`, `_points_in_polygon`, `_points_in_geometry`,
`_polygon_area`, `_ring_area`, `_is_geographic_crs`,
`_normalize_crs_string` and the CRS-handling prologue of `run`.
-/

/-- A polygon ring: a list of planar vertices (GeoJSON-compatible, the
closing vertex may be repeated; the containment test closes the loop
itself). -/
abbrev Ring := List (ℚ × ℚ)

/-- The edges of a ring, closing the loop from the last vertex back to the
first. -/
def ringEdges (ring : Ring) : List ((ℚ × ℚ) × (ℚ × ℚ)) :=
  match ring with
  | [] => []
  | v :: _ => ring.zip (ring.drop 1 ++ [v])

/-- Whether the horizontal ray from `p` rightwards crosses the edge `e`
(half-open vertical span, so shared vertices are counted once). -/
def edgeCrosses (p : ℚ × ℚ) (e : (ℚ × ℚ) × (ℚ × ℚ)) : Bool :=
  if (e.1.2 ≤ p.2 ∧ p.2 < e.2.2) ∨ (e.2.2 ≤ p.2 ∧ p.2 < e.1.2) then
    if p.1 < e.1.1 + (e.2.1 - e.1.1) * (p.2 - e.1.2) / (e.2.2 - e.1.2)
    then true else false
  else false

/-- Modelled from the spec: the single-ring point-containment test.  The
source delegates it to `matplotlib.path.Path.contains_points` (an external
library, not part of this repository); the spec's §9 mandates direct
ring containment with holes as subtractive masks, which is the standard
even-odd ray-crossing rule modelled here. -/
def pointInRing (p : ℚ × ℚ) (ring : Ring) : Bool :=
  ((ringEdges ring).countP (edgeCrosses p)) % 2 == 1

/-- `_points_in_polygon`, per point: a GeoJSON `Polygon` coordinate array
`[outer, hole1, ...]`.  An outer ring with fewer than 3 vertices yields
`false` (the all-zeros mask); hole rings with fewer than 3 vertices are
skipped. -/
def pointInPolygonRings (p : ℚ × ℚ) (rings : List Ring) : Bool :=
  match rings with
  | [] => false
  | outer :: holes =>
      if outer.length < 3 then false
      else
        pointInRing p outer &&
          holes.all (fun h => if h.length < 3 then true else !pointInRing p h)

/-- A GeoJSON AOI geometry (only these two types survive `_extract_aois`). -/
inductive AoiGeom where
  | polygon (rings : List Ring)
  | multiPolygon (polys : List (List Ring))
deriving DecidableEq, Repr

/-- `_points_in_geometry`, per point: union of the per-polygon masks. -/
def pointInGeometry (p : ℚ × ℚ) (g : AoiGeom) : Bool :=
  match g with
  | .polygon rings => pointInPolygonRings p rings
  | .multiPolygon polys => polys.any fun rings => pointInPolygonRings p rings

/-- `int(mask.sum())`: how many detection points fall inside the geometry. -/
def countInGeometry (pts : List (ℚ × ℚ)) (g : AoiGeom) : ℕ :=
  (pts.filter fun p => pointInGeometry p g).length

/-- Inner product of coordinate lists (`np.dot`). -/
def dotQ (a b : List ℚ) : ℚ :=
  (a.zip b).foldl (fun acc q => acc + q.1 * q.2) 0

/-- `_ring_area`: the signed Shoelace area
`0.5 * (dot x (roll y, -1) - dot y (roll x, -1))`; `0` for rings with
fewer than 3 vertices. -/
def ringArea (ring : Ring) : ℚ :=
  if ring.length < 3 then 0
  else
    let xs := ring.map Prod.fst
    let ys := ring.map Prod.snd
    (dotQ xs (ys.drop 1 ++ ys.take 1) - dotQ ys (xs.drop 1 ++ xs.take 1)) / 2

/-- `_polygon_area`: `|outer| − Σ |hole|`, clamped at zero. -/
def polygonArea (rings : List Ring) : ℚ :=
  match rings with
  | [] => 0
  | outer :: holes =>
      max (|ringArea outer| - (holes.map fun h => |ringArea h|).sum) 0

/-- `_geometry_area_m2`. -/
def geometryArea (g : AoiGeom) : ℚ :=
  match g with
  | .polygon rings => polygonArea rings
  | .multiPolygon polys => (polys.map polygonArea).sum

/-! Python string helpers, implemented over the character list with plain
structural recursion (the `String` library routines do not evaluate inside
the kernel).  Only ASCII matters here: every CRS tag the pipeline handles
is ASCII. -/

/-- ASCII whitespace, the relevant subset of what Python `str.strip`
removes. -/
def isSpaceChar (c : Char) : Bool :=
  c == ' ' || c == '\t' || c == '\n' || c == '\r'

/-- Python `str.strip()`. -/
def strTrim (s : String) : String :=
  ⟨(((s.data.dropWhile isSpaceChar).reverse.dropWhile isSpaceChar).reverse)⟩

/-- ASCII uppercase of one character. -/
def charUp (c : Char) : Char :=
  if 'a' ≤ c ∧ c ≤ 'z' then Char.ofNat (c.toNat - 32) else c

/-- Python `str.upper()` (ASCII). -/
def strUpper (s : String) : String := ⟨s.data.map charUp⟩

/-- Does the second list start with the first? -/
def leadMatches : List Char → List Char → Bool
  | [], _ => true
  | _ :: _, [] => false
  | a :: as, b :: bs => a == b && leadMatches as bs

/-- Python `str.startswith`. -/
def strStarts (s lead : String) : Bool := leadMatches lead.data s.data

/-- Fuel-indexed splitter on a non-empty separator; the fuel only bounds
the recursion and `length + 1` is always enough. -/
def splitList (sep : List Char) : ℕ → List Char → List Char → List (List Char)
  | 0, acc, rest => [acc.reverse ++ rest]
  | _ + 1, acc, [] => [acc.reverse]
  | fuel + 1, acc, c :: cs =>
      if leadMatches sep (c :: cs) then
        acc.reverse :: splitList sep fuel [] ((c :: cs).drop sep.length)
      else splitList sep fuel (c :: acc) cs

/-- Python `str.split(sep)` for a non-empty separator. -/
def strSplitOn (s sep : String) : List String :=
  (splitList sep.data (s.data.length + 1) [] s.data).map fun l => ⟨l⟩

/-- Python `"sub" in s`. -/
def strContains (s sub : String) : Bool := (strSplitOn s sub).length ≥ 2

/-- Python `str.isdigit` (ASCII decimal digits). -/
def isDigitStr (s : String) : Bool :=
  !s.data.isEmpty && s.data.all Char.isDigit

/-- `int(token)` for a digit string, rendered back without leading zeros. -/
def digitsToNat (s : String) : ℕ :=
  s.data.foldl (fun acc c => acc * 10 + (c.toNat - 48)) 0

/-- Decimal rendering of a natural number (fuel-indexed digit peeling). -/
def natDigits : ℕ → ℕ → List Char
  | 0, _ => []
  | fuel + 1, n =>
      if n < 10 then [Char.ofNat (48 + n)]
      else natDigits fuel (n / 10) ++ [Char.ofNat (48 + n % 10)]

def natToStr (n : ℕ) : String := ⟨natDigits (n + 1) n⟩

/-- Python `str.split(":", 1)[1]`: everything after the first colon. -/
def strAfterColon (s : String) : String :=
  ⟨(s.data.dropWhile (fun c => !(c == ':'))).drop 1⟩

/-- `_normalize_crs_string`. -/
def normalizeCrsString (value : String) : Option String :=
  let cleaned := strTrim value
  if cleaned.data.isEmpty then none
  else
    let u := strUpper cleaned
    if u == "CRS84" || u == "OGC:CRS84" then some "EPSG:4326"
    else if u == "WGS84" then some "EPSG:4326"
    else if strStarts u "URN:OGC:DEF:CRS:" then
      if strContains u "EPSG" then
        match (strSplitOn cleaned ":").reverse.find?
            (fun t => isDigitStr (strTrim t)) with
        | some tok => some ("EPSG:" ++ natToStr (digitsToNat (strTrim tok)))
        | none => some cleaned
      else some cleaned
    else if strStarts u "EPSG:" then
      let t := strTrim (strAfterColon cleaned)
      if isDigitStr t then some ("EPSG:" ++ natToStr (digitsToNat t))
      else some cleaned
    else if isDigitStr cleaned then
      some ("EPSG:" ++ natToStr (digitsToNat cleaned))
    else some cleaned

/-- `_is_geographic_crs`: `None` is NOT geographic; otherwise the
normalized form is geographic iff it is `EPSG:4326`, one of the `CRS84`
spellings, or mentions `CRS84`. -/
def isGeographicCrs (crs : Option String) : Bool :=
  match crs with
  | none => false
  | some s =>
      let norm := (normalizeCrsString s).getD ""
      let u := strUpper (strTrim norm)
      u == "EPSG:4326" || u == "CRS84" || u == "OGC:CRS84"
        || strContains u "CRS84"

/-- The effective AOI CRS: the `aoi_crs_epsg` override wins over the tag
extracted from the AOI GeoJSON. -/
def effectiveAoiCrs (override : Option Int) (extracted : Option String) :
    Option String :=
  match override with
  | some e => some ("EPSG:" ++ toString e)
  | none => extracted

/-- Python's `a or b` on optional CRS tags. -/
def pythonOr (a b : Option String) : Option String :=
  match a with
  | some x => some x
  | none => b

/-- The `raise ValueError` sites on the CRS/AOI path of `aoi_eval.run`.
(`_points_in_polygon` and `_ring_area` have no raise site: there is no
invalid-geometry error anywhere on this path.) -/
inductive AoiError where
  | crsMismatch (lidarCrs aoiCrs : String)
  | geographicNotAllowed
  | noAois
deriving DecidableEq, Repr

/-- One AOI feature after `_extract_aois` (only Polygon/MultiPolygon
features survive extraction; the preserved property bag is irrelevant to
the claims and omitted). -/
structure AoiFeature where
  aoi_id : String
  geometry : AoiGeom
deriving DecidableEq, Repr

/-- One row of `results`. -/
structure AoiResult where
  aoi_id : String
  count : ℕ
  area_m2 : Option ℚ
  density_per_ha : Option ℚ
deriving DecidableEq, Repr

/-- The `for aoi in aois` loop body of `run`: counts always, area and
density only under a non-geographic CRS, density only for positive area. -/
def evalResults (pts : List (ℚ × ℚ)) (aois : List AoiFeature)
    (geographic : Bool) : List AoiResult :=
  aois.map fun aoi =>
    let count := countInGeometry pts aoi.geometry
    if geographic then ⟨aoi.aoi_id, count, none, none⟩
    else
      let area := geometryArea aoi.geometry
      ⟨aoi.aoi_id, count, some area,
        if 0 < area then some ((count : ℚ) / (area / 10000)) else none⟩

/-- The mismatch guard `if lidar_crs and aoi_crs and lidar_crs != aoi_crs`. -/
def crsMismatchCheck (lidarCrs aoiCrs : Option String) : Option AoiError :=
  match lidarCrs, aoiCrs with
  | some a, some b => if a ≠ b then some (.crsMismatch a b) else none
  | _, _ => none

/-- The structured inputs of `aoi_eval.run` after JSON loading: the
extracted LiDAR CRS tag, the AOI EPSG override and extracted AOI tag, the
geographic permission flag, the detection coordinates, and the extracted
polygonal AOI features. -/
structure AoiEvalInput where
  lidarCrs : Option String
  aoiCrsOverride : Option Int
  aoiCrsTag : Option String
  allowGeographic : Bool
  dets : List (ℚ × ℚ)
  aois : List AoiFeature
deriving DecidableEq, Repr

/-- Model of `aoi_eval.run`: CRS mismatch guard (only when both tags are
present), the `_extract_aois` no-AOIs guard, the geographic-CRS guard on
`aoi_crs or lidar_crs`, then the evaluation loop with results sorted by
AOI id. -/
def aoiEvalRun (inp : AoiEvalInput) : Except AoiError (List AoiResult) :=
  let aoiCrs := effectiveAoiCrs inp.aoiCrsOverride inp.aoiCrsTag
  match crsMismatchCheck inp.lidarCrs aoiCrs with
  | some e => .error e
  | none =>
      if inp.aois.isEmpty then .error .noAois
      else
        let geographic := isGeographicCrs (pythonOr aoiCrs inp.lidarCrs)
        if geographic && !inp.allowGeographic then .error .geographicNotAllowed
        else
          .ok (List.insertionSort (fun r₁ r₂ => r₁.aoi_id ≤ r₂.aoi_id)
            (evalResults inp.dets inp.aois geographic))

/-! ### The C7, C8 and C10 theorems -/

/-- C7: a point is inside a Polygon AOI iff it is inside the outer ring
and inside none of the polygon's (non-degenerate) hole rings; inside a
MultiPolygon AOI iff inside at least one member polygon (union of the
per-polygon masks); and on the donut AOI with outer `(0,0)–(2,2)` and hole
`(0.5,0.5)–(1.5,1.5)`, the detections `(1,1)` and `(0.25,0.25)` count 1. -/
theorem points_in_polygon_semantics :
    (∀ (p : ℚ × ℚ) (outer : Ring) (holes : List Ring), 3 ≤ outer.length →
      (pointInPolygonRings p (outer :: holes) = true ↔
        (pointInRing p outer = true ∧
          ∀ h ∈ holes, 3 ≤ h.length → pointInRing p h = false))) ∧
    (∀ (p : ℚ × ℚ) (polys : List (List Ring)),
      pointInGeometry p (.multiPolygon polys) = true ↔
        ∃ rings ∈ polys, pointInPolygonRings p rings = true) ∧
    countInGeometry [(1, 1), (1/4, 1/4)]
      (.polygon [[(0, 0), (2, 0), (2, 2), (0, 2), (0, 0)],
        [(1/2, 1/2), (3/2, 1/2), (3/2, 3/2), (1/2, 3/2), (1/2, 1/2)]]) = 1 := by
  refine ⟨?_, ?_, ?_⟩
  · intro p outer holes houter
    simp only [pointInPolygonRings, if_neg (by omega : ¬ outer.length < 3),
      Bool.and_eq_true, List.all_eq_true]
    constructor
    · rintro ⟨h1, h2⟩
      refine ⟨h1, fun h hh hlen => ?_⟩
      have hb := h2 h hh
      rw [if_neg (by omega : ¬ h.length < 3)] at hb
      simpa using hb
    · rintro ⟨h1, h2⟩
      refine ⟨h1, fun h hh => ?_⟩
      by_cases hlen : h.length < 3
      · rw [if_pos hlen]
      · rw [if_neg hlen]
        simpa using h2 h hh (by omega)
  · intro p polys
    simp only [pointInGeometry, List.any_eq_true]
  · norm_num [countInGeometry, pointInGeometry, pointInPolygonRings,
      pointInRing, ringEdges, edgeCrosses, List.countP_cons, List.countP_nil,
      List.filter_cons, List.zip]

/-- Witness for `points_in_polygon_semantics`: the polygon-with-hole
clause instantiated on the donut AOI at the point `(1,1)`. -/
theorem points_in_polygon_semantics_witness :
    pointInPolygonRings (1, 1)
        [[(0, 0), (2, 0), (2, 2), (0, 2), (0, 0)],
          [(1/2, 1/2), (3/2, 1/2), (3/2, 3/2), (1/2, 3/2), (1/2, 1/2)]] = true ↔
      (pointInRing (1, 1) [(0, 0), (2, 0), (2, 2), (0, 2), (0, 0)] = true ∧
        ∀ h ∈ [[(1/2, 1/2), (3/2, 1/2), (3/2, 3/2), (1/2, 3/2), (1/2, 1/2)]],
          3 ≤ h.length → pointInRing ((1 : ℚ), (1 : ℚ)) h = false) :=
  points_in_polygon_semantics.1 (1, 1)
    [(0, 0), (2, 0), (2, 2), (0, 2), (0, 0)]
    [[(1/2, 1/2), (3/2, 1/2), (3/2, 3/2), (1/2, 3/2), (1/2, 1/2)]] (by decide)

/-- C8 counterexample: the claim says an AOI ring with fewer than 3 points
fails with `InvalidGeometry`, but a run whose only AOI has a 2-point outer
ring succeeds, reporting count 0 and area 0 for that AOI. -/
theorem aoi_degenerate_ring_no_error :
    aoiEvalRun ⟨none, none, none, false, [(1/2, 1/2)],
        [⟨"a", .polygon [[(0, 0), (1, 1)]]⟩]⟩
      = .ok [⟨"a", 0, some 0, none⟩] := by
  norm_num [aoiEvalRun, effectiveAoiCrs, crsMismatchCheck, isGeographicCrs,
    pythonOr, evalResults, countInGeometry, pointInGeometry,
    pointInPolygonRings, polygonArea, geometryArea, ringArea,
    List.insertionSort, List.orderedInsert]

/-- C8 (amended): a ring with fewer than 3 points is not an error anywhere
in the AOI evaluator: a degenerate outer ring yields the all-false mask, a
degenerate ring has Shoelace area 0 (degenerate holes are skipped), and
the evaluator fails only on a CRS mismatch, an empty AOI list, or a
geographic CRS without permission — never on geometry degeneracy. -/
theorem degenerate_rings_silently_empty :
    (∀ (p : ℚ × ℚ) (outer : Ring) (holes : List Ring), outer.length < 3 →
      pointInPolygonRings p (outer :: holes) = false) ∧
    (∀ ring : Ring, ring.length < 3 → ringArea ring = 0) ∧
    (∀ inp : AoiEvalInput,
      (∃ e, aoiEvalRun inp = .error e) ↔
        ((crsMismatchCheck inp.lidarCrs
            (effectiveAoiCrs inp.aoiCrsOverride inp.aoiCrsTag)).isSome = true ∨
          inp.aois = [] ∨
          (isGeographicCrs (pythonOr
              (effectiveAoiCrs inp.aoiCrsOverride inp.aoiCrsTag)
              inp.lidarCrs) = true ∧ inp.allowGeographic = false))) := by
  refine ⟨?_, ?_, ?_⟩
  · intro p outer holes hlen
    simp [pointInPolygonRings, if_pos hlen]
  · intro ring hlen
    simp [ringArea, if_pos hlen]
  · intro inp
    simp only [aoiEvalRun]
    cases hchk : crsMismatchCheck inp.lidarCrs
        (effectiveAoiCrs inp.aoiCrsOverride inp.aoiCrsTag) with
    | some e =>
        simp only [hchk, Option.isSome_some]
        exact ⟨fun _ => Or.inl trivial, fun _ => ⟨e, rfl⟩⟩
    | none =>
        simp only [hchk, Option.isSome_none]
        by_cases hemp : inp.aois.isEmpty
        · rw [if_pos hemp]
          rw [List.isEmpty_iff] at hemp
          exact ⟨fun _ => Or.inr (Or.inl hemp), fun _ => ⟨.noAois, rfl⟩⟩
        · rw [if_neg hemp]
          rw [List.isEmpty_iff] at hemp
          by_cases hgeo : (isGeographicCrs (pythonOr
              (effectiveAoiCrs inp.aoiCrsOverride inp.aoiCrsTag)
              inp.lidarCrs) && !inp.allowGeographic) = true
          · rw [if_pos hgeo]
            rw [Bool.and_eq_true, Bool.not_eq_true'] at hgeo
            exact ⟨fun _ => Or.inr (Or.inr hgeo), fun _ =>
              ⟨.geographicNotAllowed, rfl⟩⟩
          · rw [if_neg hgeo]
            rw [Bool.and_eq_true, Bool.not_eq_true'] at hgeo
            constructor
            · rintro ⟨e, he⟩
              cases he
            · rintro (h | h | h)
              · simp at h
              · exact absurd h hemp
              · exact absurd h hgeo

/-- Witness for `degenerate_rings_silently_empty`: the degenerate 2-point
ring `[(0,0), (1,1)]` contains nothing and has zero area. -/
theorem degenerate_rings_silently_empty_witness :
    pointInPolygonRings (0, 0) [[(0, 0), (1, 1)]] = false ∧
    ringArea [(0, 0), (1, 1)] = 0 :=
  ⟨degenerate_rings_silently_empty.1 (0, 0) [(0, 0), (1, 1)] [] (by decide),
    degenerate_rings_silently_empty.2.1 [(0, 0), (1, 1)] (by decide)⟩

/-- C10 counterexample: the claim says that when the LiDAR summary carries
no recognizable CRS tag the evaluator raises no CRS-related error, but
with an absent LiDAR tag and a geographic AOI tag (`EPSG:4326`) and no
permission flag, the evaluator raises the geographic-CRS error. -/
theorem aoi_absent_lidar_crs_geographic_error :
    aoiEvalRun ⟨none, none, some "EPSG:4326", false, [],
        [⟨"a", .polygon [[(0, 0), (2, 0), (2, 2), (0, 0)]]⟩]⟩
      = .error .geographicNotAllowed := by rfl

/-- C10 (amended): the CRS-mismatch check fires only when both CRS tags
are present (an input with either tag absent can never produce the
mismatch error); an absent CRS is classified as non-geographic; and when
BOTH tags are absent the evaluator raises no CRS-related error at all and
proceeds exactly as for a projected CRS, computing `area_m2` and
`density_per_ha`.  (When exactly one tag is present the geographic guard
still applies to it, which is what the counterexample exhibits.) -/
theorem aoi_absent_crs_projected (inp : AoiEvalInput) :
    isGeographicCrs none = false ∧
    ((inp.lidarCrs = none ∨
        effectiveAoiCrs inp.aoiCrsOverride inp.aoiCrsTag = none) →
      ∀ a b, aoiEvalRun inp ≠ .error (.crsMismatch a b)) ∧
    (inp.lidarCrs = none →
      effectiveAoiCrs inp.aoiCrsOverride inp.aoiCrsTag = none →
      inp.aois ≠ [] →
      aoiEvalRun inp = .ok (List.insertionSort
        (fun r₁ r₂ => r₁.aoi_id ≤ r₂.aoi_id)
        (evalResults inp.dets inp.aois false))) := by
  refine ⟨rfl, ?_, ?_⟩
  · intro hor a b
    have hnone : crsMismatchCheck inp.lidarCrs
        (effectiveAoiCrs inp.aoiCrsOverride inp.aoiCrsTag) = none := by
      rcases hor with h | h
      · rw [h]
        rfl
      · rw [h]
        cases inp.lidarCrs <;> rfl
    simp only [aoiEvalRun, hnone]
    split_ifs <;> simp
  · intro h1 h2 h3
    have hnone : crsMismatchCheck inp.lidarCrs
        (effectiveAoiCrs inp.aoiCrsOverride inp.aoiCrsTag) = none := by
      rw [h1]
      rfl
    simp only [aoiEvalRun, hnone, h1, h2]
    rw [if_neg (by simpa [List.isEmpty_iff] using h3)]
    rfl

/-- Witness for `aoi_absent_crs_projected`: a run with both CRS tags
absent succeeds and cannot be a mismatch error. -/
theorem aoi_absent_crs_projected_witness :
    aoiEvalRun ⟨none, none, none, false, [],
        [⟨"a", .polygon [[(0, 0), (2, 0), (2, 2), (0, 0)]]⟩]⟩
      = .ok (List.insertionSort (fun r₁ r₂ => r₁.aoi_id ≤ r₂.aoi_id)
          (evalResults [] [⟨"a", .polygon [[(0, 0), (2, 0), (2, 2), (0, 0)]]⟩]
            false)) ∧
    aoiEvalRun ⟨none, none, none, false, [],
        [⟨"a", .polygon [[(0, 0), (2, 0), (2, 2), (0, 0)]]⟩]⟩
      ≠ .error (.crsMismatch "EPSG:1" "EPSG:2") :=
  ⟨(aoi_absent_crs_projected _).2.2 rfl rfl (by decide),
    (aoi_absent_crs_projected _).2.1 (Or.inl rfl) "EPSG:1" "EPSG:2"⟩

/-! ## §6 Batch de-duplication (`_dedupe_detections`)

Model of the union-find over detection centroids: `parent = np.arange(n)`,
`find` with path halving (`parent[a] = parent[parent[a]]; a = parent[a]`),
`union` linking `parent[find(b)] = find(a)`, the pair loop over
`query_ball_point` neighbourhoods (`j ≤ i` skipped), cluster collection by
`find(i)` in index order, the per-cluster representative
`min(members, key=(file, id, x, y))`, and the final sort by `(file, id)`.
The mutable parent array is threaded explicitly; `find`'s `while` loop is
fuel-indexed with fuel `n`, which the lemmas show is always sufficient. -/

/-- A detection as the batch de-duplicator reads it: the `(file, id, x, y)`
fields that determine the representative choice and the centroid. -/
structure DDet where
  file : String
  id : String
  x : ℚ
  y : ℚ
deriving DecidableEq, Repr

/-- `parent[a] = v`. -/
def setP (p : ℕ → ℕ) (a v : ℕ) : ℕ → ℕ := fun x => if x = a then v else p x

/-- The `find` loop with path halving, fuel-indexed:
`while parent[a] != a: parent[a] = parent[parent[a]]; a = parent[a]`. -/
def findLoop : ℕ → (ℕ → ℕ) → ℕ → ((ℕ → ℕ) × ℕ)
  | 0, p, a => (p, a)
  | fuel + 1, p, a =>
      if p a = a then (p, a)
      else findLoop fuel (setP p a (p (p a))) (p (p a))

/-- `union(a, b)`: `ra, rb = find(a), find(b); if ra != rb: parent[rb] = ra`. -/
def unionOp (n : ℕ) (p : ℕ → ℕ) (a b : ℕ) : ℕ → ℕ :=
  let f₁ := findLoop n p a
  let f₂ := findLoop n f₁.1 b
  if f₁.2 ≠ f₂.2 then setP f₂.1 f₂.2 f₁.2 else f₂.1

/-- The parent array keeps indices inside the point set. -/
def Bounded (n : ℕ) (p : ℕ → ℕ) : Prop := ∀ i < n, p i < n

/-- `a` is a root. -/
def isRoot (p : ℕ → ℕ) (a : ℕ) : Prop := p a = a

/-- Every chain of parents eventually reaches a root. -/
def Grounded (n : ℕ) (p : ℕ → ℕ) : Prop :=
  ∀ i < n, ∃ k, isRoot p (p^[k] i)

/-- The root of `a`: `n` parent steps always reach it (shown below). -/
def rootOf (n : ℕ) (p : ℕ → ℕ) (a : ℕ) : ℕ := p^[n] a

/-! ### Root-chasing lemmas -/

theorem iterate_absorb {p : ℕ → ℕ} {a k : ℕ} (h : isRoot p (p^[k] a)) :
    ∀ m, k ≤ m → p^[m] a = p^[k] a := by
  intro m hm
  induction m with
  | zero =>
      have : k = 0 := Nat.le_zero.mp hm
      rw [this]
  | succ m ih =>
      rcases Nat.lt_or_ge k (m + 1) with hk | hk
      · have hmk : k ≤ m := Nat.lt_succ_iff.mp hk
        rw [Function.iterate_succ_apply', ih hmk]
        exact h
      · have : k = m + 1 := le_antisymm hm hk
        rw [this]

theorem iterate_bounded {n : ℕ} {p : ℕ → ℕ} (hb : Bounded n p) {a : ℕ}
    (ha : a < n) : ∀ k, p^[k] a < n := by
  intro k
  induction k with
  | zero => exact ha
  | succ k ih =>
      rw [Function.iterate_succ_apply']
      exact hb _ ih

/-- Pigeonhole: if `Q` first holds after `k` parent steps and all iterates
stay below `n`, then `k < n`. -/
theorem first_hit_lt {n : ℕ} {p : ℕ → ℕ} (hb : Bounded n p) {a : ℕ}
    (ha : a < n) {Q : ℕ → Prop} {k : ℕ} (hQ : Q (p^[k] a))
    (hmin : ∀ j < k, ¬ Q (p^[j] a)) : k < n := by
  have hiter := iterate_bounded hb ha
  have hinj : Function.Injective
      (fun j : Fin (k + 1) => (⟨p^[j.1] a, hiter j.1⟩ : Fin n)) := by
    intro i j hij
    simp only [Fin.mk.injEq] at hij
    by_contra hne
    have hne' : i.1 ≠ j.1 := fun hc => hne (Fin.ext hc)
    -- symmetrize to i < j
    rcases Nat.lt_or_ge i.1 j.1 with hlt | hge
    · exact absurd_of_period hb ha hQ hmin i.1 j.1 hlt (j.2) hij
    · have hlt : j.1 < i.1 := lt_of_le_of_ne hge (Ne.symm hne')
      exact absurd_of_period hb ha hQ hmin j.1 i.1 hlt (i.2) hij.symm
  have := Fintype.card_le_of_injective _ hinj
  simpa using this
where
  absurd_of_period {n : ℕ} {p : ℕ → ℕ} (hb : Bounded n p) {a : ℕ}
      (ha : a < n) {Q : ℕ → Prop} {k : ℕ} (hQ : Q (p^[k] a))
      (hmin : ∀ j < k, ¬ Q (p^[j] a)) (i j : ℕ) (hij : i < j)
      (hjk : j < k + 1) (heq : p^[i] a = p^[j] a) : False := by
    have period : ∀ m, i ≤ m → p^[m + (j - i)] a = p^[m] a := by
      intro m hm
      induction m, hm using Nat.le_induction with
      | base =>
          have : i + (j - i) = j := by omega
          rw [this, ← heq]
      | succ m hm ih =>
          have h1 : m + 1 + (j - i) = (m + (j - i)) + 1 := by omega
          rw [h1, Function.iterate_succ_apply', ih]
          exact (Function.iterate_succ_apply' p m a).symm
    have hjle : j ≤ k := Nat.lt_succ_iff.mp hjk
    have hik : i ≤ k - (j - i) := by omega
    have hkk : (k - (j - i)) + (j - i) = k := by omega
    have := period (k - (j - i)) hik
    rw [hkk] at this
    exact hmin (k - (j - i)) (by omega) (this ▸ hQ)

theorem exists_root_lt {n : ℕ} {p : ℕ → ℕ} (hb : Bounded n p)
    (hg : Grounded n p) {a : ℕ} (ha : a < n) :
    ∃ k < n, isRoot p (p^[k] a) := by
  classical
  obtain ⟨k0, hk0⟩ := hg a ha
  have hex : ∃ k, isRoot p (p^[k] a) := ⟨k0, hk0⟩
  refine ⟨Nat.find hex, ?_, Nat.find_spec hex⟩
  exact first_hit_lt hb ha (Nat.find_spec hex)
    (fun j hj => Nat.find_min hex hj)

theorem rootOf_isRoot {n : ℕ} {p : ℕ → ℕ} (hb : Bounded n p)
    (hg : Grounded n p) {a : ℕ} (ha : a < n) : isRoot p (rootOf n p a) := by
  obtain ⟨k, hkn, hk⟩ := exists_root_lt hb hg ha
  rw [rootOf, iterate_absorb hk n (le_of_lt hkn)]
  exact hk

theorem rootOf_lt {n : ℕ} {p : ℕ → ℕ} (hb : Bounded n p) {a : ℕ}
    (ha : a < n) : rootOf n p a < n :=
  iterate_bounded hb ha n

theorem rootOf_of_isRoot {n : ℕ} {p : ℕ → ℕ} {a : ℕ} (h : isRoot p a) :
    rootOf n p a = a := by
  rw [rootOf]
  exact iterate_absorb (k := 0) h n (Nat.zero_le n)

theorem rootOf_parent {n : ℕ} {p : ℕ → ℕ} (hb : Bounded n p)
    (hg : Grounded n p) {a : ℕ} (ha : a < n) :
    rootOf n p (p a) = rootOf n p a := by
  have h1 : p^[n] (p a) = p^[n + 1] a := by
    rw [← Function.iterate_succ_apply]
  rw [rootOf, h1, iterate_absorb (k := n) (rootOf_isRoot hb hg ha) (n + 1)
    (Nat.le_succ n)]
  rfl

/-- A node that appears anywhere on a parent chain and is a root is the
chain's root. -/
theorem root_on_chain {n : ℕ} {p : ℕ → ℕ} (hb : Bounded n p)
    (hg : Grounded n p) {x r : ℕ} (hx : x < n) (hr : isRoot p r) {j : ℕ}
    (hj : p^[j] x = r) : rootOf n p x = r := by
  rcases le_or_lt j n with hjn | hnj
  · have habs : isRoot p (p^[j] x) := by rw [isRoot, hj]; exact hr
    have : p^[n] x = p^[j] x := iterate_absorb habs n hjn
    rw [rootOf, this, hj]
  · have hroot : isRoot p (p^[n] x) := rootOf_isRoot hb hg hx
    have : p^[j] x = p^[n] x := iterate_absorb hroot j (le_of_lt hnj)
    rw [rootOf, ← this, hj]

/-! ### The path-halving step preserves the root map -/

/-- After the halving update `parent[a] = parent[parent[a]]`, every chain
reaches its old root in at most as many steps. -/
theorem halve_skip {p : ℕ → ℕ} {a : ℕ} (hna : p a ≠ a) :
    ∀ k x, isRoot p (p^[k] x) →
      ∃ m ≤ k, (setP p a (p (p a)))^[m] x = p^[k] x := by
  intro k
  induction k using Nat.strong_induction_on with
  | _ k ih =>
      intro x hroot
      by_cases hx : p x = x
      · -- `x` is already a root
        have : p^[k] x = x := iterate_absorb (k := 0) hx k (Nat.zero_le k)
        exact ⟨0, Nat.zero_le k, by rw [this]; rfl⟩
      · by_cases hxa : x = a
        · rw [← hxa] at hna ⊢
          cases k with
          | zero => exact absurd hroot hx
          | succ k' =>
              cases k' with
              | zero =>
                  -- `p x` is a root, so the halved parent is `p x` itself
                  refine ⟨1, le_refl 1, ?_⟩
                  have hpa : p (p x) = p x := hroot
                  simp only [Function.iterate_one, setP, if_pos rfl]
                  exact hpa
              | succ k'' =>
                  -- jump two steps along the old chain
                  have hit2 : p^[k''] (p (p x)) = p^[k'' + 1 + 1] x := by
                    rw [Function.iterate_add_apply]
                    rfl
                  have hroot2 : isRoot p (p^[k''] (p (p x))) := by
                    rw [hit2]
                    exact hroot
                  obtain ⟨m, hm, hmeq⟩ := ih k'' (by omega) (p (p x)) hroot2
                  rw [← hxa] at hmeq
                  refine ⟨m + 1, by omega, ?_⟩
                  rw [Function.iterate_succ_apply]
                  have hstep : setP p x (p (p x)) x = p (p x) := by
                    simp [setP]
                  rw [hstep, hmeq, hit2]
        · cases k with
          | zero => exact absurd hroot hx
          | succ k' =>
              have hroot1 : isRoot p (p^[k'] (p x)) := by
                rw [← Function.iterate_succ_apply]
                exact hroot
              obtain ⟨m, hm, hmeq⟩ := ih k' (by omega) (p x) hroot1
              refine ⟨m + 1, by omega, ?_⟩
              rw [Function.iterate_succ_apply]
              have hstep : setP p a (p (p a)) x = p x := by
                simp [setP, hxa]
              rw [hstep, hmeq, ← Function.iterate_succ_apply]

/-- Roots other than `a` stay roots after the halving update (and `a` is
never a root when the update fires). -/
theorem halve_isRoot {p : ℕ → ℕ} {a : ℕ} (hna : p a ≠ a) {r : ℕ}
    (hr : isRoot p r) : isRoot (setP p a (p (p a))) r := by
  have hra : r ≠ a := fun hc => hna (by rw [← hc]; exact hr)
  simp only [isRoot, setP, if_neg hra]
  exact hr

theorem halve_bounded {n : ℕ} {p : ℕ → ℕ} (hb : Bounded n p) {a : ℕ}
    (ha : a < n) : Bounded n (setP p a (p (p a))) := by
  intro i hi
  simp only [setP]
  by_cases hia : i = a
  · rw [if_pos hia]
    exact hb _ (hb _ ha)
  · rw [if_neg hia]
    exact hb _ hi

theorem halve_rootOf {n : ℕ} {p : ℕ → ℕ} (hb : Bounded n p)
    (hg : Grounded n p) {a : ℕ} (ha : a < n) (hna : p a ≠ a) :
    (Grounded n (setP p a (p (p a)))) ∧
    (∀ x < n, rootOf n (setP p a (p (p a))) x = rootOf n p x) := by
  constructor
  · intro x hx
    obtain ⟨k, hkn, hk⟩ := exists_root_lt hb hg hx
    obtain ⟨m, hm, hmeq⟩ := halve_skip hna k x hk
    exact ⟨m, by rw [isRoot, hmeq]; exact (halve_isRoot hna hk)⟩
  · intro x hx
    have hroot : isRoot p (p^[n] x) := rootOf_isRoot hb hg hx
    obtain ⟨m, hm, hmeq⟩ := halve_skip hna n x hroot
    have hroot' : isRoot (setP p a (p (p a))) (p^[n] x) := halve_isRoot hna hroot
    have habs : (setP p a (p (p a)))^[n] x = (setP p a (p (p a)))^[m] x := by
      have : isRoot (setP p a (p (p a))) ((setP p a (p (p a)))^[m] x) := by
        rw [isRoot, hmeq]
        exact hroot'
      exact iterate_absorb this n hm
    rw [rootOf, habs, hmeq]
    rfl

/-! ### `find` returns the root and preserves the root map -/

theorem findLoop_spec {n : ℕ} :
    ∀ (fuel : ℕ) (p : ℕ → ℕ) (a : ℕ), Bounded n p → Grounded n p → a < n →
      (∃ k ≤ fuel, isRoot p (p^[k] a)) →
      (findLoop fuel p a).2 = rootOf n p a ∧
      Bounded n (findLoop fuel p a).1 ∧
      Grounded n (findLoop fuel p a).1 ∧
      (∀ x < n, rootOf n (findLoop fuel p a).1 x = rootOf n p x) := by
  intro fuel
  induction fuel with
  | zero =>
      intro p a hb hg ha hex
      obtain ⟨k, hk0, hk⟩ := hex
      rw [Nat.le_zero.mp hk0] at hk
      exact ⟨(rootOf_of_isRoot hk).symm, hb, hg, fun x _ => rfl⟩
  | succ fuel ih =>
      intro p a hb hg ha hex
      by_cases hroot : p a = a
      · rw [findLoop, if_pos hroot]
        exact ⟨(rootOf_of_isRoot hroot).symm, hb, hg, fun x _ => rfl⟩
      · rw [findLoop, if_neg hroot]
        set p₁ := setP p a (p (p a)) with hp₁
        have hb₁ : Bounded n p₁ := halve_bounded hb ha
        obtain ⟨hg₁, hr₁⟩ := halve_rootOf hb hg ha hroot
        have ha₁ : p (p a) < n := hb _ (hb _ ha)
        -- the old chain from `p (p a)` reaches a root within `fuel` steps
        obtain ⟨k, hkf, hk⟩ := hex
        have hex₁ : ∃ k' ≤ fuel, isRoot p₁ (p₁^[k'] (p (p a))) := by
          have hx2 : ∃ k₂ ≤ fuel, isRoot p (p^[k₂] (p (p a))) := by
            cases k with
            | zero => exact absurd hk hroot
            | succ k' =>
                cases k' with
                | zero =>
                    -- `p a` is a root, so `p (p a) = p a` is a root
                    refine ⟨0, Nat.zero_le fuel, ?_⟩
                    have hpr : p (p a) = p a := hk
                    simpa [isRoot, hpr] using hk
                | succ k'' =>
                    refine ⟨k'', by omega, ?_⟩
                    have : p^[k''] (p (p a)) = p^[k'' + 1 + 1] a := by
                      rw [Function.iterate_add_apply]
                      rfl
                    rw [this]
                    exact hk
          obtain ⟨k₂, hk₂f, hk₂⟩ := hx2
          obtain ⟨m, hm, hmeq⟩ := halve_skip hroot k₂ (p (p a)) hk₂
          refine ⟨m, le_trans hm hk₂f, ?_⟩
          rw [isRoot, hmeq]
          exact halve_isRoot hroot hk₂
        obtain ⟨hfr, hfb, hfg, hfroot⟩ := ih p₁ (p (p a)) hb₁ hg₁ ha₁ hex₁
        refine ⟨?_, hfb, hfg, ?_⟩
        · rw [hfr, hr₁ _ ha₁, rootOf_parent hb hg (hb _ ha),
            rootOf_parent hb hg ha]
        · intro x hx
          rw [hfroot x hx, hr₁ x hx]

/-! ### `union` merges exactly the two classes -/

theorem link_rootOf {n : ℕ} {p : ℕ → ℕ} (hb : Bounded n p)
    (hg : Grounded n p) {ra rb : ℕ} (hra : isRoot p ra) (hrb : isRoot p rb)
    (hne : ra ≠ rb) (hran : ra < n) (hrbn : rb < n) :
    Bounded n (setP p rb ra) ∧ Grounded n (setP p rb ra) ∧
    (∀ x < n, rootOf n (setP p rb ra) x
      = if rootOf n p x = rb then ra else rootOf n p x) := by
  have hb' : Bounded n (setP p rb ra) := by
    intro i hi
    simp only [setP]
    by_cases hib : i = rb
    · rw [if_pos hib]
      exact hran
    · rw [if_neg hib]
      exact hb _ hi
  have hrbhit : ∀ x < n, ∀ j, p^[j] x = rb → rootOf n p x = rb := by
    intro x hx j hj
    exact root_on_chain hb hg hx hrb hj
  have hra' : isRoot (setP p rb ra) ra := by
    simp only [isRoot, setP, if_neg hne]
    exact hra
  constructor
  · exact hb'
  constructor
  · -- groundedness: either the chain avoids `rb` or it jumps to `ra`
    intro x hx
    by_cases hxr : rootOf n p x = rb
    · -- chain reaches rb, then the new link sends it to root ra
      classical
      have hex : ∃ j, p^[j] x = rb := ⟨n, hxr⟩
      obtain ⟨m, hmeq⟩ := hex
      -- iterates below the first hit coincide in the new parent
      have htrans : ∀ j, (∀ i < j, p^[i] x ≠ rb) →
          (setP p rb ra)^[j] x = p^[j] x := by
        intro j
        induction j with
        | zero => intro _; rfl
        | succ j ihj =>
            intro hno
            rw [Function.iterate_succ_apply', Function.iterate_succ_apply',
              ihj (fun i hi => hno i (Nat.lt_succ_of_lt hi))]
            simp only [setP, if_neg (hno j (Nat.lt_succ_self j))]
      have hexmin : ∃ j, p^[j] x = rb := ⟨m, hmeq⟩
      have hfirst := Nat.find_spec hexmin
      have hfmin : ∀ i < Nat.find hexmin, ¬ p^[i] x = rb :=
        fun i hi => Nat.find_min hexmin hi
      set j₀ := Nat.find hexmin with hj₀
      have hstep : (setP p rb ra)^[j₀ + 1] x = ra := by
        rw [Function.iterate_succ_apply', htrans j₀ hfmin, hfirst]
        simp [setP]
      exact ⟨j₀ + 1, by rw [isRoot, hstep]; exact hra'⟩
    · -- the chain never meets rb: all iterates coincide
      obtain ⟨k, hk⟩ := hg x hx
      have hnever : ∀ j, p^[j] x ≠ rb := by
        intro j hj
        exact hxr (hrbhit x hx j hj)
      have htrans : ∀ j, (setP p rb ra)^[j] x = p^[j] x := by
        intro j
        induction j with
        | zero => rfl
        | succ j ihj =>
            rw [Function.iterate_succ_apply', Function.iterate_succ_apply',
              ihj]
            simp only [setP, if_neg (hnever j)]
      refine ⟨k, ?_⟩
      rw [isRoot, htrans k]
      have hkra : p^[k] x ≠ rb := hnever k
      simp only [setP, if_neg hkra]
      exact hk
  · intro x hx
    by_cases hxr : rootOf n p x = rb
    · rw [if_pos hxr]
      classical
      have hexmin : ∃ j, p^[j] x = rb := ⟨n, hxr⟩
      have hfirst := Nat.find_spec hexmin
      have hfmin : ∀ i < Nat.find hexmin, ¬ p^[i] x = rb :=
        fun i hi => Nat.find_min hexmin hi
      set j₀ := Nat.find hexmin with hj₀
      have hj₀n : j₀ < n :=
        first_hit_lt hb hx (Q := fun y => y = rb) hfirst hfmin
      have htrans : ∀ j, (∀ i < j, p^[i] x ≠ rb) →
          (setP p rb ra)^[j] x = p^[j] x := by
        intro j
        induction j with
        | zero => intro _; rfl
        | succ j ihj =>
            intro hno
            rw [Function.iterate_succ_apply', Function.iterate_succ_apply',
              ihj (fun i hi => hno i (Nat.lt_succ_of_lt hi))]
            simp only [setP, if_neg (hno j (Nat.lt_succ_self j))]
      have hstep : (setP p rb ra)^[j₀ + 1] x = ra := by
        rw [Function.iterate_succ_apply', htrans j₀ hfmin, hfirst]
        simp [setP]
      have habs : isRoot (setP p rb ra) ((setP p rb ra)^[j₀ + 1] x) := by
        rw [isRoot, hstep]
        exact hra'
      rw [rootOf, iterate_absorb habs n (by omega), hstep]
    · rw [if_neg hxr]
      have hnever : ∀ j, p^[j] x ≠ rb := by
        intro j hj
        exact hxr (root_on_chain hb hg hx hrb hj)
      have htrans : ∀ j, (setP p rb ra)^[j] x = p^[j] x := by
        intro j
        induction j with
        | zero => rfl
        | succ j ihj =>
            rw [Function.iterate_succ_apply', Function.iterate_succ_apply',
              ihj]
            simp only [setP, if_neg (hnever j)]
      rw [rootOf, htrans n]
      rfl

theorem unionOp_spec {n : ℕ} {p : ℕ → ℕ} (hb : Bounded n p)
    (hg : Grounded n p) {a b : ℕ} (ha : a < n) (hbn : b < n) :
    Bounded n (unionOp n p a b) ∧ Grounded n (unionOp n p a b) ∧
    (∀ x < n, rootOf n (unionOp n p a b) x
      = if rootOf n p x = rootOf n p b then rootOf n p a
        else rootOf n p x) := by
  have hex1 : ∃ k ≤ n, isRoot p (p^[k] a) := by
    obtain ⟨k, hkn, hk⟩ := exists_root_lt hb hg ha
    exact ⟨k, le_of_lt hkn, hk⟩
  obtain ⟨hf1r, hf1b, hf1g, hf1root⟩ := findLoop_spec n p a hb hg ha hex1
  set p₁ := (findLoop n p a).1 with hp₁
  set ra := (findLoop n p a).2 with hra
  have hex2 : ∃ k ≤ n, isRoot p₁ (p₁^[k] b) := by
    obtain ⟨k, hkn, hk⟩ := exists_root_lt hf1b hf1g hbn
    exact ⟨k, le_of_lt hkn, hk⟩
  obtain ⟨hf2r, hf2b, hf2g, hf2root⟩ := findLoop_spec n p₁ b hf1b hf1g hbn hex2
  set p₂ := (findLoop n p₁ b).1 with hp₂
  set rb := (findLoop n p₁ b).2 with hrb
  have hra_eq : ra = rootOf n p a := hf1r
  have hrb_eq : rb = rootOf n p b := by rw [hf2r, hf1root b hbn]
  have hroots₂ : ∀ x < n, rootOf n p₂ x = rootOf n p x := by
    intro x hx
    rw [hf2root x hx, hf1root x hx]
  have hran : ra < n := by rw [hra_eq]; exact rootOf_lt hb ha
  have hrbn' : rb < n := by rw [hrb_eq]; exact rootOf_lt hb hbn
  have hu : unionOp n p a b = if ra ≠ rb then setP p₂ rb ra else p₂ := rfl
  rw [hu]
  by_cases hne : ra ≠ rb
  · rw [if_pos hne]
    have hra₂ : isRoot p₂ ra := by
      have : ra = rootOf n p₂ a := by rw [hroots₂ a ha, hra_eq]
      rw [this]
      exact rootOf_isRoot hf2b hf2g ha
    have hrb₂ : isRoot p₂ rb := by
      have : rb = rootOf n p₂ b := by rw [hroots₂ b hbn, hrb_eq]
      rw [this]
      exact rootOf_isRoot hf2b hf2g hbn
    obtain ⟨hlb, hlg, hlroot⟩ := link_rootOf hf2b hf2g hra₂ hrb₂ hne hran hrbn'
    refine ⟨hlb, hlg, ?_⟩
    intro x hx
    rw [hlroot x hx, hroots₂ x hx, hra_eq, hrb_eq]
  · rw [if_neg hne]
    push_neg at hne
    refine ⟨hf2b, hf2g, ?_⟩
    intro x hx
    rw [hroots₂ x hx]
    by_cases hcond : rootOf n p x = rootOf n p b
    · rw [if_pos hcond, hcond, ← hrb_eq, ← hne, hra_eq]
    · rw [if_neg hcond]

/-- The pair loop: `for i ...: for j in neighbors[i]: ... union(i, j)`. -/
def processPairs (n : ℕ) (pairs : List (ℕ × ℕ)) (p : ℕ → ℕ) : ℕ → ℕ :=
  pairs.foldl (fun q pr => unionOp n q pr.1 pr.2) p

theorem processPairs_spec {n : ℕ} :
    ∀ (pairs : List (ℕ × ℕ)) (p : ℕ → ℕ), Bounded n p → Grounded n p →
      (∀ pr ∈ pairs, pr.1 < n ∧ pr.2 < n) →
      Bounded n (processPairs n pairs p) ∧
      Grounded n (processPairs n pairs p) ∧
      (∀ x < n, ∀ y < n, rootOf n p x = rootOf n p y →
        rootOf n (processPairs n pairs p) x
          = rootOf n (processPairs n pairs p) y) ∧
      (∀ pr ∈ pairs, rootOf n (processPairs n pairs p) pr.1
        = rootOf n (processPairs n pairs p) pr.2) := by
  intro pairs
  induction pairs with
  | nil =>
      intro p hb hg hall
      refine ⟨hb, hg, fun x _ y _ h => h, ?_⟩
      intro pr hpr
      cases hpr
  | cons pr rest ih =>
      intro p hb hg hall
      have hpr1 : pr.1 < n := (hall pr (List.mem_cons_self pr rest)).1
      have hpr2 : pr.2 < n := (hall pr (List.mem_cons_self pr rest)).2
      obtain ⟨hub, hug, huroot⟩ := unionOp_spec hb hg hpr1 hpr2
      set p' := unionOp n p pr.1 pr.2 with hp'
      have hrest : ∀ q ∈ rest, q.1 < n ∧ q.2 < n :=
        fun q hq => hall q (List.mem_cons_of_mem pr hq)
      obtain ⟨hfb, hfg, hfmono, hfjoin⟩ := ih p' hub hug hrest
      have hstep : processPairs n (pr :: rest) p = processPairs n rest p' := rfl
      have hmono' : ∀ x < n, ∀ y < n, rootOf n p x = rootOf n p y →
          rootOf n p' x = rootOf n p' y := by
        intro x hx y hy hxy
        rw [huroot x hx, huroot y hy, hxy]
      refine ⟨by rw [hstep]; exact hfb, by rw [hstep]; exact hfg, ?_, ?_⟩
      · intro x hx y hy hxy
        rw [hstep]
        exact hfmono x hx y hy (hmono' x hx y hy hxy)
      · intro q hq
        rw [hstep]
        rcases List.mem_cons.mp hq with rfl | hmem
        · -- the union just performed joins `q.1` and `q.2`
          have hq1 : rootOf n p' q.1 = rootOf n p' q.2 := by
            rw [huroot q.1 hpr1, huroot q.2 hpr2]
            by_cases hc : rootOf n p q.1 = rootOf n p q.2
            · rw [if_pos hc, if_pos rfl]
            · rw [if_neg hc, if_pos rfl]
          exact hfmono q.1 hpr1 q.2 hpr2 hq1
        · exact hfjoin q hmem

/-! ### The de-duplication pipeline -/

/-- The default used only to totalize list indexing (never reached on the
in-range indices the pipeline produces). -/
def dfltDet : DDet := ⟨"", "", 0, 0⟩

/-- Squared centroid distance between two detections. -/
def dSq (a b : DDet) : ℚ := (a.x - b.x) ^ 2 + (a.y - b.y) ^ 2

/-- The union pairs generated by the neighbour loop: `query_ball_point`
returns every `j` with distance `≤ r` of `i` (inclusive), and the loop
skips `j ≤ i`. -/
def dedupePairs (dets : List DDet) (r : ℚ) : List (ℕ × ℕ) :=
  (List.range dets.length).flatMap fun i =>
    ((List.range dets.length).filter fun j =>
      decide (dSq (dets.getD i dfltDet) (dets.getD j dfltDet) ≤ r ^ 2)
        && decide (i < j)).map fun j => (i, j)

/-- The parent array after the whole union loop, starting from
`np.arange(n)`. -/
def dedupeParent (dets : List DDet) (r : ℚ) : ℕ → ℕ :=
  processPairs dets.length (dedupePairs dets r) (fun i => i)

/-- The cluster assignment: the union-find root of index `i`. -/
def clusterRoot (dets : List DDet) (r : ℚ) (i : ℕ) : ℕ :=
  rootOf dets.length (dedupeParent dets r) i

/-- The cluster-collection loop `clusters.setdefault(find(i), []).append(i)`
threads the parent array through the successive `find` calls. -/
def collectRoots (n : ℕ) : (ℕ → ℕ) → List ℕ → (List ℕ × (ℕ → ℕ))
  | p, [] => ([], p)
  | p, i :: rest =>
      let f := findLoop n p i
      let rec' := collectRoots n f.1 rest
      (f.2 :: rec'.1, rec'.2)

/-- The per-index cluster roots as the source computes them. -/
def clusterRootList (dets : List DDet) (r : ℚ) : List ℕ :=
  (collectRoots dets.length (dedupeParent dets r)
    (List.range dets.length)).1

/-- The representative-selection key `(file, id, x, y)` (Python tuple
comparison). -/
def keyOf (d : DDet) : Lex (String × Lex (String × Lex (ℚ × ℚ))) :=
  toLex (d.file, toLex (d.id, toLex (d.x, d.y)))

/-- Python `min(members, key=...)`: first strictly-smaller element wins. -/
def pyMinIdx (dets : List DDet) : List ℕ → ℕ
  | [] => 0
  | m :: rest =>
      rest.foldl
        (fun acc j =>
          if keyOf (dets.getD j dfltDet) < keyOf (dets.getD acc dfltDet)
          then j else acc) m

/-- One record of the deduped output: the representative detection plus
its `dedupe_cluster_id` and `dedupe_cluster_size` (absent on the `r ≤ 0`
or empty-input pass-through, which returns the records unchanged). -/
structure DOut where
  det : DDet
  cluster_id : Option ℕ
  cluster_size : Option ℕ
deriving DecidableEq, Repr

/-- The final output order `(file, id)`. -/
def outKeyLe (d₁ d₂ : DOut) : Prop :=
  toLex (d₁.det.file, d₁.det.id) ≤ toLex (d₂.det.file, d₂.det.id)

instance : DecidableRel outKeyLe := fun d₁ d₂ =>
  inferInstanceAs (Decidable (_ ≤ _))

/-- Model of `_dedupe_detections` (the `deduped_detections` component;
the `dedupe_index` side map is not needed by any claim).  Clusters are
keyed by root in first-occurrence order (`dict` insertion order), each
cluster's representative is `min(members, key=(file, id, x, y))`, and the
output is sorted by `(file, id)`. -/
def dedupeDetections (dets : List DDet) (r : ℚ) : List DOut :=
  if r ≤ 0 ∨ dets.isEmpty then dets.map fun d => ⟨d, none, none⟩
  else
    let n := dets.length
    let roots := clusterRootList dets r
    let deduped := roots.dedup.map fun ρ =>
      let members := (List.range n).filter fun i => roots.getD i 0 == ρ
      (⟨dets.getD (pyMinIdx dets members) dfltDet, some ρ,
        some members.length⟩ : DOut)
    List.insertionSort outKeyLe deduped

/-! ### Support lemmas for the main de-duplication theorem -/

theorem dedupePairs_mem {dets : List DDet} {r : ℚ} {i j : ℕ} :
    (i, j) ∈ dedupePairs dets r ↔
      i < dets.length ∧ j < dets.length ∧
      dSq (dets.getD i dfltDet) (dets.getD j dfltDet) ≤ r ^ 2 ∧ i < j := by
  simp only [dedupePairs, List.mem_flatMap, List.mem_map, List.mem_filter,
    List.mem_range, Bool.and_eq_true, decide_eq_true_eq, Prod.mk.injEq]
  constructor
  · rintro ⟨a, ha, b, ⟨hb, hd, hab⟩, rfl, rfl⟩
    exact ⟨ha, hb, hd, hab⟩
  · rintro ⟨hi, hj, hd, hij⟩
    exact ⟨i, hi, j, ⟨hj, hd, hij⟩, rfl, rfl⟩

theorem id_bounded (n : ℕ) : Bounded n (fun i => i) := fun _ hi => hi

theorem id_grounded (n : ℕ) : Grounded n (fun i => i) :=
  fun i _ => ⟨0, rfl⟩

theorem dedupeParent_spec (dets : List DDet) (r : ℚ) :
    Bounded dets.length (dedupeParent dets r) ∧
    Grounded dets.length (dedupeParent dets r) ∧
    (∀ i < dets.length, ∀ j < dets.length,
      dSq (dets.getD i dfltDet) (dets.getD j dfltDet) ≤ r ^ 2 →
      clusterRoot dets r i = clusterRoot dets r j) := by
  have hall : ∀ pr ∈ dedupePairs dets r, pr.1 < dets.length ∧
      pr.2 < dets.length := by
    intro pr hpr
    obtain ⟨h1, h2, _, _⟩ := dedupePairs_mem.mp (by
      show (pr.1, pr.2) ∈ dedupePairs dets r
      simpa using hpr)
    exact ⟨h1, h2⟩
  obtain ⟨hb, hg, hmono, hjoin⟩ := processPairs_spec (dedupePairs dets r)
    (fun i => i) (id_bounded dets.length) (id_grounded dets.length) hall
  refine ⟨hb, hg, ?_⟩
  intro i hi j hj hd
  rcases lt_trichotomy i j with hij | rfl | hji
  · exact hjoin (i, j) (dedupePairs_mem.mpr ⟨hi, hj, hd, hij⟩)
  · rfl
  · have hd' : dSq (dets.getD j dfltDet) (dets.getD i dfltDet) ≤ r ^ 2 := by
      rw [show dSq (dets.getD j dfltDet) (dets.getD i dfltDet)
        = dSq (dets.getD i dfltDet) (dets.getD j dfltDet) by
          simp only [dSq]; ring]
      exact hd
    exact (hjoin (j, i) (dedupePairs_mem.mpr ⟨hj, hi, hd', hji⟩)).symm

theorem collectRoots_spec {n : ℕ} :
    ∀ (l : List ℕ) (p : ℕ → ℕ), Bounded n p → Grounded n p →
      (∀ i ∈ l, i < n) →
      (collectRoots n p l).1 = l.map (rootOf n p) := by
  intro l
  induction l with
  | nil => intro p _ _ _; rfl
  | cons i rest ih =>
      intro p hb hg hmem
      have hi : i < n := hmem i (List.mem_cons_self i rest)
      have hex : ∃ k ≤ n, isRoot p (p^[k] i) := by
        obtain ⟨k, hkn, hk⟩ := exists_root_lt hb hg hi
        exact ⟨k, le_of_lt hkn, hk⟩
      obtain ⟨hfr, hfb, hfg, hfroot⟩ := findLoop_spec n p i hb hg hi hex
      have hrest : ∀ j ∈ rest, j < n :=
        fun j hj => hmem j (List.mem_cons_of_mem i hj)
      have hrec := ih (findLoop n p i).1 hfb hfg hrest
      show (findLoop n p i).2
          :: (collectRoots n (findLoop n p i).1 rest).1
        = rootOf n p i :: rest.map (rootOf n p)
      rw [hfr, hrec, List.map_congr_left
        (fun j hj => hfroot j (hrest j hj))]

theorem clusterRootList_eq (dets : List DDet) (r : ℚ) :
    clusterRootList dets r
      = (List.range dets.length).map (clusterRoot dets r) := by
  obtain ⟨hb, hg, _⟩ := dedupeParent_spec dets r
  exact collectRoots_spec (List.range dets.length) (dedupeParent dets r)
    hb hg (fun i hi => List.mem_range.mp hi)

theorem clusterRootList_getD (dets : List DDet) (r : ℚ) {i : ℕ}
    (hi : i < dets.length) :
    (clusterRootList dets r).getD i 0 = clusterRoot dets r i := by
  rw [clusterRootList_eq, List.getD_eq_getElem?_getD, List.getElem?_map,
    List.getElem?_range hi]
  rfl

theorem pyMinIdx_spec (dets : List DDet) :
    ∀ (l : List ℕ), l ≠ [] →
      pyMinIdx dets l ∈ l ∧
      ∀ j ∈ l, keyOf (dets.getD (pyMinIdx dets l) dfltDet)
        ≤ keyOf (dets.getD j dfltDet) := by
  have haux : ∀ (rest : List ℕ) (m : ℕ),
      (rest.foldl (fun acc j =>
        if keyOf (dets.getD j dfltDet) < keyOf (dets.getD acc dfltDet)
        then j else acc) m) ∈ m :: rest ∧
      keyOf (dets.getD (rest.foldl (fun acc j =>
        if keyOf (dets.getD j dfltDet) < keyOf (dets.getD acc dfltDet)
        then j else acc) m) dfltDet) ≤ keyOf (dets.getD m dfltDet) ∧
      ∀ j ∈ rest, keyOf (dets.getD (rest.foldl (fun acc j =>
        if keyOf (dets.getD j dfltDet) < keyOf (dets.getD acc dfltDet)
        then j else acc) m) dfltDet) ≤ keyOf (dets.getD j dfltDet) := by
    intro rest
    induction rest with
    | nil =>
        intro m
        refine ⟨List.mem_cons_self m [], le_refl _, ?_⟩
        intro j hj
        cases hj
    | cons j rest ih =>
        intro m
        set m' := if keyOf (dets.getD j dfltDet)
          < keyOf (dets.getD m dfltDet) then j else m with hm'
        have hm'le : keyOf (dets.getD m' dfltDet)
            ≤ keyOf (dets.getD m dfltDet) := by
          rw [hm']
          by_cases hc : keyOf (dets.getD j dfltDet)
            < keyOf (dets.getD m dfltDet)
          · rw [if_pos hc]
            exact le_of_lt hc
          · rw [if_neg hc]
        have hm'j : keyOf (dets.getD m' dfltDet)
            ≤ keyOf (dets.getD j dfltDet) := by
          rw [hm']
          by_cases hc : keyOf (dets.getD j dfltDet)
            < keyOf (dets.getD m dfltDet)
          · rw [if_pos hc]
          · rw [if_neg hc]
            exact not_lt.mp hc
        obtain ⟨hmem, hlem, hall⟩ := ih m'
        have hfold : (j :: rest).foldl (fun acc j =>
            if keyOf (dets.getD j dfltDet) < keyOf (dets.getD acc dfltDet)
            then j else acc) m
          = rest.foldl (fun acc j =>
            if keyOf (dets.getD j dfltDet) < keyOf (dets.getD acc dfltDet)
            then j else acc) m' := rfl
        rw [hfold]
        refine ⟨?_, le_trans hlem hm'le, ?_⟩
        · rcases List.mem_cons.mp hmem with h | h
          · rw [h, hm']
            by_cases hc : keyOf (dets.getD j dfltDet)
              < keyOf (dets.getD m dfltDet)
            · rw [if_pos hc]
              exact List.mem_cons_of_mem m (List.mem_cons_self j rest)
            · rw [if_neg hc]
              exact List.mem_cons_self m (j :: rest)
          · exact List.mem_cons_of_mem m (List.mem_cons_of_mem j h)
        · intro j' hj'
          rcases List.mem_cons.mp hj' with rfl | h
          · exact le_trans hlem hm'j
          · exact hall j' h
  intro l hne
  cases l with
  | nil => exact absurd rfl hne
  | cons m rest =>
      obtain ⟨hmem, hlem, hall⟩ := haux rest m
      refine ⟨hmem, ?_⟩
      intro j hj
      rcases List.mem_cons.mp hj with rfl | h
      · exact hlem
      · exact hall j h

/-! ### The C4 theorem -/

/-- C4: for every detection list and dedupe radius `r > 0`: any two
detections within distance `r` (boundary inclusive) end in the same
cluster; no two distinct cluster representatives in the deduped output lie
within `r` of each other; and each output record is the representative of
its cluster — a member with the lexicographically minimal `(file, id, x, y)`
key among the cluster's members. -/
theorem dedupe_representatives (dets : List DDet) (r : ℚ) (hr : 0 < r) :
    (∀ i < dets.length, ∀ j < dets.length,
      dSq (dets.getD i dfltDet) (dets.getD j dfltDet) ≤ r ^ 2 →
      clusterRoot dets r i = clusterRoot dets r j) ∧
    (∀ d₁ ∈ dedupeDetections dets r, ∀ d₂ ∈ dedupeDetections dets r,
      d₁.cluster_id ≠ d₂.cluster_id → r ^ 2 < dSq d₁.det d₂.det) ∧
    (∀ d ∈ dedupeDetections dets r, ∃ ρ, d.cluster_id = some ρ ∧
      (∃ i < dets.length, clusterRoot dets r i = ρ ∧
        dets.getD i dfltDet = d.det) ∧
      ∀ j < dets.length, clusterRoot dets r j = ρ →
        keyOf d.det ≤ keyOf (dets.getD j dfltDet)) := by
  have hmerge := (dedupeParent_spec dets r).2.2
  by_cases hemp : dets.isEmpty
  · rw [List.isEmpty_iff] at hemp
    subst hemp
    refine ⟨hmerge, ?_, ?_⟩
    · intro d₁ hd₁
      simp [dedupeDetections] at hd₁
    · intro d hd
      simp [dedupeDetections] at hd
  · have hcond : ¬ (r ≤ 0 ∨ dets.isEmpty) := by
      push_neg
      exact ⟨hr, hemp⟩
    set n := dets.length with hn
    set roots := clusterRootList dets r with hroots
    set mkMembers := fun ρ =>
      (List.range n).filter fun i => roots.getD i 0 == ρ with hmk
    set mkEntry := fun ρ =>
      (⟨dets.getD (pyMinIdx dets (mkMembers ρ)) dfltDet, some ρ,
        some (mkMembers ρ).length⟩ : DOut) with hent
    have hdef : dedupeDetections dets r
        = List.insertionSort outKeyLe (roots.dedup.map mkEntry) := by
      rw [dedupeDetections, if_neg hcond]
    have hmem_iff : ∀ ρ j, j ∈ mkMembers ρ ↔
        (j < n ∧ clusterRoot dets r j = ρ) := by
      intro ρ j
      rw [hmk]
      simp only [List.mem_filter, List.mem_range, beq_iff_eq]
      constructor
      · rintro ⟨hj, hgd⟩
        rw [clusterRootList_getD dets r hj] at hgd
        exact ⟨hj, hgd⟩
      · rintro ⟨hj, hgd⟩
        rw [← clusterRootList_getD dets r hj] at hgd
        exact ⟨hj, hgd⟩
    have hout : ∀ d ∈ dedupeDetections dets r, ∃ ρ, ρ ∈ roots ∧
        d = mkEntry ρ := by
      intro d hd
      rw [hdef] at hd
      have hd' : d ∈ roots.dedup.map mkEntry :=
        (List.perm_insertionSort outKeyLe _).mem_iff.mp hd
      obtain ⟨ρ, hρ, hρd⟩ := List.mem_map.mp hd'
      exact ⟨ρ, List.mem_dedup.mp hρ, hρd.symm⟩
    have hρfacts : ∀ ρ, ρ ∈ roots →
        pyMinIdx dets (mkMembers ρ) < n ∧
        clusterRoot dets r (pyMinIdx dets (mkMembers ρ)) = ρ ∧
        ∀ j < n, clusterRoot dets r j = ρ →
          keyOf (dets.getD (pyMinIdx dets (mkMembers ρ)) dfltDet)
            ≤ keyOf (dets.getD j dfltDet) := by
      intro ρ hρ
      have hρi : ∃ i < n, clusterRoot dets r i = ρ := by
        rw [hroots, clusterRootList_eq] at hρ
        obtain ⟨i, hi, hiρ⟩ := List.mem_map.mp hρ
        exact ⟨i, List.mem_range.mp hi, hiρ⟩
      obtain ⟨i0, hi0, hi0ρ⟩ := hρi
      have hne : mkMembers ρ ≠ [] := by
        intro hc
        have : i0 ∈ mkMembers ρ := (hmem_iff ρ i0).mpr ⟨hi0, hi0ρ⟩
        rw [hc] at this
        cases this
      obtain ⟨hrepmem, hrepmin⟩ := pyMinIdx_spec dets (mkMembers ρ) hne
      obtain ⟨hrep_lt, hrep_root⟩ := (hmem_iff ρ _).mp hrepmem
      refine ⟨hrep_lt, hrep_root, ?_⟩
      intro j hj hjρ
      exact hrepmin j ((hmem_iff ρ j).mpr ⟨hj, hjρ⟩)
    refine ⟨hmerge, ?_, ?_⟩
    · intro d₁ hd₁ d₂ hd₂ hne
      obtain ⟨ρ₁, hρ₁, rfl⟩ := hout d₁ hd₁
      obtain ⟨ρ₂, hρ₂, rfl⟩ := hout d₂ hd₂
      have hρne : ρ₁ ≠ ρ₂ := by
        intro hc
        exact hne (by rw [hent, hc])
      by_contra hle
      push_neg at hle
      obtain ⟨h1lt, h1root, _⟩ := hρfacts ρ₁ hρ₁
      obtain ⟨h2lt, h2root, _⟩ := hρfacts ρ₂ hρ₂
      have := hmerge _ h1lt _ h2lt (by
        simpa [hent] using hle)
      rw [h1root, h2root] at this
      exact hρne this
    · intro d hd
      obtain ⟨ρ, hρ, rfl⟩ := hout d hd
      obtain ⟨hlt, hroot, hmin⟩ := hρfacts ρ hρ
      exact ⟨ρ, rfl, ⟨_, hlt, hroot, rfl⟩, hmin⟩

/-- Witness for `dedupe_representatives`: three detections, two of them 1 m
apart with radius 1.5 m. -/
theorem dedupe_representatives_witness :
    (0 : ℚ) < 3/2 ∧
    ((∀ i < ([⟨"f", "a", 0, 0⟩, ⟨"f", "b", 1, 0⟩,
        ⟨"f", "c", 10, 0⟩] : List DDet).length,
      ∀ j < ([⟨"f", "a", 0, 0⟩, ⟨"f", "b", 1, 0⟩,
        ⟨"f", "c", 10, 0⟩] : List DDet).length,
      dSq (([⟨"f", "a", 0, 0⟩, ⟨"f", "b", 1, 0⟩,
          ⟨"f", "c", 10, 0⟩] : List DDet).getD i dfltDet)
          (([⟨"f", "a", 0, 0⟩, ⟨"f", "b", 1, 0⟩,
          ⟨"f", "c", 10, 0⟩] : List DDet).getD j dfltDet) ≤ (3/2) ^ 2 →
      clusterRoot [⟨"f", "a", 0, 0⟩, ⟨"f", "b", 1, 0⟩,
        ⟨"f", "c", 10, 0⟩] (3/2) i
        = clusterRoot [⟨"f", "a", 0, 0⟩, ⟨"f", "b", 1, 0⟩,
        ⟨"f", "c", 10, 0⟩] (3/2) j) ∧
    (∀ d₁ ∈ dedupeDetections [⟨"f", "a", 0, 0⟩, ⟨"f", "b", 1, 0⟩,
        ⟨"f", "c", 10, 0⟩] (3/2),
      ∀ d₂ ∈ dedupeDetections [⟨"f", "a", 0, 0⟩, ⟨"f", "b", 1, 0⟩,
        ⟨"f", "c", 10, 0⟩] (3/2),
      d₁.cluster_id ≠ d₂.cluster_id → (3/2) ^ 2 < dSq d₁.det d₂.det) ∧
    (∀ d ∈ dedupeDetections [⟨"f", "a", 0, 0⟩, ⟨"f", "b", 1, 0⟩,
        ⟨"f", "c", 10, 0⟩] (3/2),
      ∃ ρ, d.cluster_id = some ρ ∧
        (∃ i < ([⟨"f", "a", 0, 0⟩, ⟨"f", "b", 1, 0⟩,
          ⟨"f", "c", 10, 0⟩] : List DDet).length,
          clusterRoot [⟨"f", "a", 0, 0⟩, ⟨"f", "b", 1, 0⟩,
            ⟨"f", "c", 10, 0⟩] (3/2) i = ρ ∧
          ([⟨"f", "a", 0, 0⟩, ⟨"f", "b", 1, 0⟩,
            ⟨"f", "c", 10, 0⟩] : List DDet).getD i dfltDet = d.det) ∧
        ∀ j < ([⟨"f", "a", 0, 0⟩, ⟨"f", "b", 1, 0⟩,
          ⟨"f", "c", 10, 0⟩] : List DDet).length,
          clusterRoot [⟨"f", "a", 0, 0⟩, ⟨"f", "b", 1, 0⟩,
            ⟨"f", "c", 10, 0⟩] (3/2) j = ρ →
          keyOf d.det ≤ keyOf (([⟨"f", "a", 0, 0⟩, ⟨"f", "b", 1, 0⟩,
            ⟨"f", "c", 10, 0⟩] : List DDet).getD j dfltDet))) :=
  ⟨by norm_num,
    dedupe_representatives
      [⟨"f", "a", 0, 0⟩, ⟨"f", "b", 1, 0⟩, ⟨"f", "c", 10, 0⟩]
      (3/2) (by norm_num)⟩

end PenguinPipeline
